import Mathlib

/-!
# structc `dict` : a chained hash table with prime-sized rehashing

Shallow embedding of `src/structc/struct/dict.c`.

* A C string key is the list of its bytes before the terminating NUL, so
  `strcmp(a, b) == 0` is equality of lists.
* A `void *` value and the `node_f` destructor are addresses, `0` being `NULL`.
* A bucket chain (`struct keypair *` linked through `next`) is the list of its
  nodes from head to tail; the bucket array is a list of chains.
* Reading an array outside its bounds (`_primes[i]`, `d->table[i]`) is undefined
  behaviour in C; the embedding returns `none` there.
* The calls made to the destructor are returned as a log of the arguments, in
  call order.
* `str_hash` lives outside this translation unit; it is a parameter
  `str_hash : Key → Nat` of the operations that use it.
-/

namespace Dict

/-- A C string: the bytes before the terminating NUL. -/
abbrev Key := List Nat

/-- The C constant `UINT_MAX` for a 32-bit `unsigned`. -/
def UINT_MAX : Nat := 4294967295

/-- The node `struct keypair` without its `next` link (the link is the list structure). -/
structure keypair where
  hash : Nat
  val : Nat
  key : Key
  deriving DecidableEq

/-- A bucket array `struct keypair **`: one chain per bucket. -/
abbrev Table := List (List keypair)

/-- The destructor calls made by `_keypair_delete(fdie, pair)`:
`if (pair->val && fdie) fdie(pair->val);` (the node itself is then freed). -/
def _keypair_delete (fdie : Nat) (pair : keypair) : List Nat :=
  if pair.val ≠ 0 ∧ fdie ≠ 0 then [pair.val] else []

/-- The node built by `_keypair_create(hash, v, k)`. -/
def _keypair_create (hash : Nat) (v : Nat) (k : Key) : keypair :=
  { hash := hash, val := v, key := k }

/-- The table `_primes[][2]`: rows of (load threshold, prime capacity). -/
def _primes : List (Nat × Nat) :=
  [ ((1 <<< 6) - 1, 53),
    ((1 <<< 7) - 1, 97),
    ((1 <<< 8) - 1, 193),
    ((1 <<< 9) - 1, 389),
    ((1 <<< 10) - 1, 769),
    ((1 <<< 11) - 1, 1543),
    ((1 <<< 12) - 1, 3079),
    ((1 <<< 13) - 1, 6151),
    ((1 <<< 14) - 1, 12289),
    ((1 <<< 15) - 1, 24593),
    ((1 <<< 16) - 1, 49157),
    ((1 <<< 17) - 1, 98317),
    ((1 <<< 18) - 1, 196613),
    ((1 <<< 19) - 1, 393241),
    ((1 <<< 20) - 1, 786433),
    ((1 <<< 21) - 1, 1572869),
    ((1 <<< 22) - 1, 3145739),
    ((1 <<< 23) - 1, 6291469),
    ((1 <<< 24) - 1, 12582917),
    ((1 <<< 25) - 1, 25165843),
    ((1 <<< 26) - 1, 50331653),
    ((1 <<< 27) - 1, 100663319),
    ((1 <<< 28) - 1, 201326611),
    ((1 <<< 29) - 1, 402653189),
    ((1 <<< 30) - 1, 805306457),
    (UINT_MAX, 1610612741) ]

/-- The record `struct dict`. -/
structure dict where
  fdie : Nat
  idx : Nat
  used : Nat
  table : Table
  deriving DecidableEq

/-- The inner `while (pair)` loop of `_dict_resize`: every node of the chain is
pushed on the head of bucket `pair->hash % prime` of the new array. -/
def resize_while (prime : Nat) : List keypair → Table → Option Table
  | [], table => some table
  | pair :: next, table =>
    match table[pair.hash % prime]? with
    | none => none
    | some head => resize_while prime next (table.set (pair.hash % prime) (pair :: head))

/-- The outer `for (i = 0; i < size; ++i)` loop of `_dict_resize`, with `n`
iterations left and the counter at `i`. -/
def resize_for (old : Table) (prime : Nat) : Nat → Nat → Table → Option Table
  | 0, _, table => some table
  | n + 1, i, table =>
    match old[i]? with
    | none => none
    | some pair =>
      match resize_while prime pair table with
      | none => none
      | some table1 => resize_for old prime n (i + 1) table1

/-- The function `_dict_resize(d)`. -/
def _dict_resize (d : dict) : Option dict :=
  match _primes[d.idx]? with
  | none => none
  | some (threshold, size) =>
    if d.used < threshold then some d
    else
      match _primes[d.idx + 1]? with
      | none => none
      | some (_, prime) =>
        match resize_for d.table prime size 0 (List.replicate prime []) with
        | none => none
        | some table => some { d with idx := d.idx + 1, table := table }

/-- The function `dict_create(fdie)`. -/
def dict_create (fdie : Nat) : Option dict :=
  match _primes[0]? with
  | none => none
  | some (_, size) => some { fdie := fdie, idx := 0, used := 0, table := List.replicate size [] }

/-- The `while (pair)` loop of `dict_delete` on one chain. -/
def delete_while (fdie : Nat) : List keypair → List Nat
  | [] => []
  | pair :: next => _keypair_delete fdie pair ++ delete_while fdie next

/-- The `for (i = 0; i < size; ++i)` loop of `dict_delete`, with `n` iterations
left and the counter at `i`. -/
def delete_for (fdie : Nat) (table : Table) : Nat → Nat → Option (List Nat)
  | 0, _ => some []
  | n + 1, i =>
    match table[i]? with
    | none => none
    | some pair =>
      match delete_for fdie table n (i + 1) with
      | none => none
      | some rest => some (delete_while fdie pair ++ rest)

/-- The function `dict_delete(d)`; the handle `NULL` is `none`. The result is the
log of destructor calls. -/
def dict_delete : Option dict → Option (List Nat)
  | none => some []
  | some d =>
    match _primes[d.idx]? with
    | none => none
    | some (_, size) => delete_for d.fdie d.table size 0

/-- The `while (pair)` loop of `dict_set` on the chain of the bucket. `some
(chain, log)` is a `return` from inside the loop with the chain as it was left
and the destructor calls made; `none` is the loop running off the end of the
chain. -/
def set_while (fdie hash : Nat) (k : Key) (v : Nat) : List keypair → Option (List keypair × List Nat)
  | [] => none
  | pair :: next =>
    if pair.hash = hash ∧ pair.key = k then
      if pair.val = v then some (pair :: next, [])
      else if v = 0 then some (next, _keypair_delete fdie pair)
      else some ({ pair with val := v } :: next, if fdie ≠ 0 then [pair.val] else [])
    else
      match set_while fdie hash k v next with
      | none => none
      | some (chain, log) => some (pair :: chain, log)

/-- The statements of `dict_set(d, k, v)` after the resize check: the bucket
scan and, when the key was not found, the insertion. -/
def dict_set_body (str_hash : Key → Nat) (d : dict) (k : Key) (v : Nat) :
    Option (dict × List Nat) :=
  match _primes[d.idx]? with
  | none => none
  | some (_, size) =>
    match d.table[str_hash k % size]? with
    | none => none
    | some pair =>
      match set_while d.fdie (str_hash k) k v pair with
      | some (chain, log) => some ({ d with table := d.table.set (str_hash k % size) chain }, log)
      | none =>
        if v ≠ 0 then
          some ({ d with
                  table := d.table.set (str_hash k % size)
                    (_keypair_create (str_hash k) v k :: pair),
                  used := (d.used + 1) % 2 ^ 32 }, [])
        else some (d, [])

/-- The function `dict_set(d, k, v)`: the dictionary afterwards and the log of
destructor calls. The resize check runs first, then the rest of the body. -/
def dict_set (str_hash : Key → Nat) (d : dict) (k : Key) (v : Nat) : Option (dict × List Nat) :=
  match _dict_resize d with
  | none => none
  | some d1 => dict_set_body str_hash d1 k v

/-- The `while (pair)` loop of `dict_get`. -/
def get_while (k : Key) : List keypair → Nat
  | [] => 0
  | pair :: next => if pair.key = k then pair.val else get_while k next

/-- The function `dict_get(d, k)`; `some 0` is the result `NULL`. -/
def dict_get (str_hash : Key → Nat) (d : dict) (k : Key) : Option Nat :=
  match _primes[d.idx]? with
  | none => none
  | some (_, size) =>
    match d.table[str_hash k % size]? with
    | none => none
    | some pair => some (get_while k pair)

/-- The dictionaries reachable from `dict_create` by `dict_set` calls. -/
inductive Reachable (str_hash : Key → Nat) : dict → Prop
  | create (fdie : Nat) (d : dict) : dict_create fdie = some d → Reachable str_hash d
  | set (d : dict) (k : Key) (v : Nat) (d1 : dict) (log : List Nat) :
      Reachable str_hash d → dict_set str_hash d k v = some (d1, log) → Reachable str_hash d1

/-- A dictionary below the capacity ceiling: the resize check of the next
`dict_set` stays inside `_primes`. -/
def below_ceiling (d : dict) : Prop := d.idx < 25 ∨ d.used < UINT_MAX

instance (d : dict) : Decidable (below_ceiling d) := by
  unfold below_ceiling; infer_instance

/-- Trial division over the `2 ^ k` candidates starting at `lo`. -/
def noDivisors (n lo : Nat) : Nat → Bool
  | 0 => n % lo != 0
  | k + 1 => noDivisors n lo k && noDivisors n (lo + 2 ^ k) k

/-- The invariant of one chain, found in bucket `i` of an array of `size`
buckets: every node carries the hash of its key, sits in the bucket its hash
selects, holds a non-null value, and no two nodes of the chain have equal keys. -/
def chain_ok (str_hash : Key → Nat) (size i : Nat) (chain : List keypair) : Prop :=
  (∀ e ∈ chain, e.hash = str_hash e.key ∧ e.hash % size = i ∧ e.val ≠ 0) ∧
    (chain.map keypair.key).Nodup

/-- The representation invariant of a dictionary. -/
def Inv (str_hash : Key → Nat) (d : dict) : Prop :=
  ∃ threshold size, _primes[d.idx]? = some (threshold, size) ∧ d.table.length = size ∧
    d.used ≤ threshold ∧ ∀ i chain, d.table[i]? = some chain → chain_ok str_hash size i chain

/-- The values of all entries in all buckets, bucket by bucket, each chain from
head to tail. -/
def live (d : dict) : List Nat := d.table.flatten.map keypair.val

/-- A sequence of `dict_set` calls, applied from left to right: the dictionary
afterwards and the destructor calls of the whole sequence. -/
def run (str_hash : Key → Nat) : dict → List (Key × Nat) → Option (dict × List Nat)
  | d, [] => some (d, [])
  | d, (k, v) :: calls =>
    match dict_set str_hash d k v with
    | none => none
    | some (d1, log) =>
      match run str_hash d1 calls with
      | none => none
      | some (d2, log2) => some (d2, log ++ log2)

/-- A whole lifetime: `dict_create(fdie)`, the `dict_set` calls, `dict_delete`.
The result is the log of all destructor calls. -/
def lifetime (str_hash : Key → Nat) (fdie : Nat) (calls : List (Key × Nat)) : Option (List Nat) :=
  match dict_create fdie with
  | none => none
  | some d =>
    match run str_hash d calls with
    | none => none
    | some (d1, log) =>
      match dict_delete (some d1) with
      | none => none
      | some log2 => some (log ++ log2)

/-- The non-null value pointers passed to a sequence of `dict_set` calls. -/
def passed (calls : List (Key × Nat)) : List Nat := (calls.map Prod.snd).filter (fun v => v ≠ 0)

/-- The calls `dict_set(d, [m], m + 1)` for `m = 0, ..., n - 1`: `n` distinct
keys with `n` distinct non-null values. -/
def fill (n : Nat) : List (Key × Nat) := (List.range n).map (fun m => ([m], m + 1))

/-- A sample hash function for the worked examples: the sum of the bytes. -/
def sum_hash (k : Key) : Nat := k.foldl (fun a b => a + b) 0

/-- The dictionary `dict_create(fdie)` returns. -/
def ex_empty (fdie : Nat) : dict :=
  { fdie := fdie, idx := 0, used := 0, table := List.replicate 53 [] }

/-- The dictionary after `dict_create(fdie)` and `dict_set(d, "a", 5)` under `sum_hash`. -/
def ex_one (fdie : Nat) : dict :=
  { fdie := fdie, idx := 0, used := 1,
    table := (List.replicate 53 []).set 44 [{ hash := 97, val := 5, key := [97] }] }

/-- Sixty-two rounds of inserting the key "a" and deleting it again, and one
more insertion. -/
def churn : List (Key × Nat) :=
  (List.replicate 62 [([97], 5), ([97], 0)]).flatten ++ [([97], 5)]

/-- The dictionary after `dict_create(NULL)` and the calls of `churn` under
`sum_hash`: one entry, and the live-count, which deletions do not lower, stands
at the first load threshold. -/
def ex_loaded : dict :=
  { fdie := 0, idx := 0, used := 63,
    table := (List.replicate 53 []).set 44 [{ hash := 97, val := 5, key := [97] }] }

/-- The lookup the specification describes: the value of the first node of the
chain whose stored hash equals `hash` and whose key equals `k`, `NULL` when
there is none. -/
def get_exact_while (hash : Nat) (k : Key) : List keypair → Nat
  | [] => 0
  | pair :: next =>
    if pair.hash = hash ∧ pair.key = k then pair.val else get_exact_while hash k next

/-- The lookup the specification describes, on a dictionary: the bucket is
`hash(k) mod capacity`, the chain is scanned for an exact `(hash, key)` match. -/
def dict_get_exact (str_hash : Key → Nat) (d : dict) (k : Key) : Option Nat :=
  match _primes[d.idx]? with
  | none => none
  | some (_, size) =>
    match d.table[str_hash k % size]? with
    | none => none
    | some pair => some (get_exact_while (str_hash k) k pair)

/-- The dictionaries reachable from `dict_create` by `dict_set` calls none of
which deleted an entry: every call passed a non-null value or an absent key. -/
inductive Undeleted (str_hash : Key → Nat) : dict → Prop
  | create (fdie : Nat) (d : dict) : dict_create fdie = some d → Undeleted str_hash d
  | set (d : dict) (k : Key) (v : Nat) (d1 : dict) (log : List Nat) :
      Undeleted str_hash d → (v ≠ 0 ∨ dict_get str_hash d k = some 0) →
      dict_set str_hash d k v = some (d1, log) → Undeleted str_hash d1

/-- The abstract map after `set(k, v)`: a non-null `v` binds `k` to `v`, `NULL`
removes `k`. -/
def abs_set (m : Key → Option Nat) (k : Key) (v : Nat) : Key → Option Nat :=
  fun k1 => if k1 = k then (if v ≠ 0 then some v else none) else m k1

/-- The abstract map obtained by folding a sequence of calls over the empty map;
the last writer of a key wins. -/
def abs_run (calls : List (Key × Nat)) : Key → Option Nat :=
  calls.foldl (fun m c => abs_set m c.1 c.2) (fun _ => none)

/-- Lookup in the abstract map, an absent key giving `NULL`. -/
def abs_get (m : Key → Option Nat) (k : Key) : Nat :=
  match m k with
  | some v => v
  | none => 0

/-! ## Facts about the capacity table -/

theorem primes_eq : _primes =
    [(63, 53), (127, 97), (255, 193), (511, 389), (1023, 769), (2047, 1543), (4095, 3079),
     (8191, 6151), (16383, 12289), (32767, 24593), (65535, 49157), (131071, 98317),
     (262143, 196613), (524287, 393241), (1048575, 786433), (2097151, 1572869),
     (4194303, 3145739), (8388607, 6291469), (16777215, 12582917), (33554431, 25165843),
     (67108863, 50331653), (134217727, 100663319), (268435455, 201326611),
     (536870911, 402653189), (1073741823, 805306457), (4294967295, 1610612741)] := by
  decide

theorem primes_lt {i : Nat} {row : Nat × Nat} (h : _primes[i]? = some row) : i < 26 := by
  have h1 := (List.getElem?_eq_some.1 h).1
  simpa [primes_eq] using h1

theorem primes_row {i threshold size : Nat} (h : _primes[i]? = some (threshold, size)) :
    0 < size ∧ threshold ≤ UINT_MAX ∧ (UINT_MAX ≤ threshold → i = 25) := by
  have hi := primes_lt h
  rw [primes_eq] at h
  unfold UINT_MAX
  interval_cases i <;> simp at h <;> obtain ⟨rfl, rfl⟩ := h <;> simp

theorem primes_next {i threshold size : Nat} (h : _primes[i]? = some (threshold, size))
    (hi : i < 25) : ∃ threshold1 prime, _primes[i + 1]? = some (threshold1, prime) ∧
      threshold < threshold1 ∧ 0 < prime := by
  rw [primes_eq] at h ⊢
  interval_cases i <;> simp at h <;> obtain ⟨rfl, rfl⟩ := h <;>
    exact ⟨_, _, rfl, by decide, by decide⟩

theorem primes_last {row : Nat × Nat} : _primes[25 + 1]? ≠ some row := by
  rw [primes_eq]; simp

/-! ## Chains -/

theorem get_while_eq_zero {k : Key} {chain : List keypair} (h : ∀ e ∈ chain, e.key ≠ k) :
    get_while k chain = 0 := by
  induction chain with
  | nil => rfl
  | cons a t ih =>
    simp only [List.mem_cons, forall_eq_or_imp] at h
    simp [get_while, h.1, ih h.2]

theorem get_while_of_mem {chain : List keypair} (hn : (chain.map keypair.key).Nodup)
    {e : keypair} (he : e ∈ chain) : get_while e.key chain = e.val := by
  induction chain with
  | nil => simp at he
  | cons a t ih =>
    simp only [List.map_cons, List.nodup_cons, List.mem_map, not_exists, not_and] at hn
    rcases List.mem_cons.1 he with rfl | h
    · simp [get_while]
    · have hne : a.key ≠ e.key := fun hh => hn.1 e h hh.symm
      simp [get_while, hne, ih hn.2 h]

theorem get_while_cases (k : Key) (chain : List keypair) :
    (∀ e ∈ chain, e.key ≠ k) ∨ ∃ e ∈ chain, e.key = k ∧ get_while k chain = e.val := by
  induction chain with
  | nil => left; simp
  | cons a t ih =>
    by_cases ha : a.key = k
    · right; exact ⟨a, by simp, ha, by simp [get_while, ha]⟩
    · rcases ih with h | ⟨e, he, hk, hg⟩
      · left
        intro e he
        rcases List.mem_cons.1 he with rfl | h1
        · exact ha
        · exact h e h1
      · right; exact ⟨e, by simp [he], hk, by simp [get_while, ha, hg]⟩

theorem get_while_before {k : Key} {pre : List keypair} (rest : List keypair)
    (h : ∀ x ∈ pre, x.key ≠ k) : get_while k (pre ++ rest) = get_while k rest := by
  induction pre with
  | nil => rfl
  | cons a t ih =>
    simp only [List.mem_cons, forall_eq_or_imp] at h
    simp [get_while, h.1, ih h.2]

theorem get_while_skip {k : Key} (pre : List keypair) {e : keypair} (post : List keypair)
    (h : e.key ≠ k) : get_while k (pre ++ e :: post) = get_while k (pre ++ post) := by
  induction pre with
  | nil => simp [get_while, h]
  | cons a t ih => simp [get_while, ih]

theorem set_while_none {fdie hash : Nat} {k : Key} {v : Nat} {chain : List keypair} :
    set_while fdie hash k v chain = none ↔ ∀ x ∈ chain, ¬ (x.hash = hash ∧ x.key = k) := by
  induction chain with
  | nil => simp [set_while]
  | cons a t ih =>
    by_cases ha : a.hash = hash ∧ a.key = k
    · simp only [set_while, ha, and_self, if_true]
      constructor
      · intro h; split_ifs at h
      · intro h; exact absurd ha (h a (by simp))
    · simp only [set_while, ha, if_false, List.mem_cons, forall_eq_or_imp, not_false_eq_true,
        true_and]
      rw [← ih]
      cases hs : set_while fdie hash k v t with
      | none => simp
      | some r => simp

theorem set_while_some {fdie hash : Nat} {k : Key} {v : Nat} {chain c1 : List keypair}
    {log : List Nat} (hs : set_while fdie hash k v chain = some (c1, log)) :
    ∃ pre e post, chain = pre ++ e :: post ∧ (∀ x ∈ pre, ¬ (x.hash = hash ∧ x.key = k)) ∧
      e.hash = hash ∧ e.key = k ∧
      ((e.val = v ∧ c1 = chain ∧ log = []) ∨
       (e.val ≠ v ∧ v = 0 ∧ c1 = pre ++ post ∧ log = _keypair_delete fdie e) ∨
       (e.val ≠ v ∧ v ≠ 0 ∧ c1 = pre ++ { e with val := v } :: post ∧
          log = if fdie ≠ 0 then [e.val] else [])) := by
  induction chain generalizing c1 log with
  | nil => simp [set_while] at hs
  | cons a t ih =>
    by_cases ha : a.hash = hash ∧ a.key = k
    · refine ⟨[], a, t, rfl, by simp, ha.1, ha.2, ?_⟩
      rw [set_while, if_pos ha] at hs
      by_cases h1 : a.val = v
      · rw [if_pos h1] at hs
        simp only [Option.some.injEq, Prod.mk.injEq] at hs
        exact Or.inl ⟨h1, hs.1.symm, hs.2.symm⟩
      · rw [if_neg h1] at hs
        by_cases h2 : v = 0
        · rw [if_pos h2] at hs
          simp only [Option.some.injEq, Prod.mk.injEq] at hs
          exact Or.inr (Or.inl ⟨h1, h2, by simpa using hs.1.symm, hs.2.symm⟩)
        · rw [if_neg h2] at hs
          simp only [Option.some.injEq, Prod.mk.injEq] at hs
          exact Or.inr (Or.inr ⟨h1, h2, by simpa using hs.1.symm, hs.2.symm⟩)
    · simp only [set_while, ha, if_false] at hs
      cases hr : set_while fdie hash k v t with
      | none => simp [hr] at hs
      | some r =>
        obtain ⟨c2, log2⟩ := r
        simp only [hr, Option.some.injEq, Prod.mk.injEq] at hs
        obtain ⟨pre, e, post, ht, hpre, hh, hk, hc⟩ := ih hr
        refine ⟨a :: pre, e, post, by simp [ht], ?_, hh, hk, ?_⟩
        · intro x hx
          rcases List.mem_cons.1 hx with rfl | h1
          · exact ha
          · exact hpre x h1
        · obtain ⟨rfl, rfl⟩ := hs
          rcases hc with ⟨h1, h2, h3⟩ | ⟨h1, h2, h3, h4⟩ | ⟨h1, h2, h3, h4⟩
          · exact Or.inl ⟨h1, by simp [h2], h3⟩
          · exact Or.inr (Or.inl ⟨h1, h2, by simp [h3], h4⟩)
          · exact Or.inr (Or.inr ⟨h1, h2, by simp [h3], h4⟩)

theorem chain_ok_key_ne {str_hash : Key → Nat} {k : Key} {pre : List keypair}
    (hh : ∀ x ∈ pre, x.hash = str_hash x.key)
    (hpre : ∀ x ∈ pre, ¬ (x.hash = str_hash k ∧ x.key = k)) : ∀ x ∈ pre, x.key ≠ k := by
  intro x hx hk
  exact hpre x hx ⟨by rw [hh x hx, hk], hk⟩

theorem set_while_found {str_hash : Key → Nat} {size i fdie : Nat} {k : Key} {v : Nat}
    {chain c1 : List keypair} {log : List Nat} (hok : chain_ok str_hash size i chain)
    (hs : set_while fdie (str_hash k) k v chain = some (c1, log)) :
    get_while k chain ≠ 0 ∧ get_while k c1 = v ∧
      (∀ k1, k1 ≠ k → get_while k1 c1 = get_while k1 chain) ∧
      chain_ok str_hash size i c1 ∧
      log = (if fdie ≠ 0 ∧ get_while k chain ≠ v then [get_while k chain] else []) ∧
      (c1.map keypair.val ++ [get_while k chain]).Perm
        (chain.map keypair.val ++ if v ≠ 0 then [v] else []) := by
  obtain ⟨pre, e, post, rfl, hpre, hh, hk, hc⟩ := set_while_some hs
  obtain ⟨hall, hnd⟩ := hok
  have hpre1 : ∀ x ∈ pre, x.key ≠ k :=
    chain_ok_key_ne (fun x hx => (hall x (by simp [hx])).1) hpre
  have he := hall e (by simp)
  have hg : get_while k (pre ++ e :: post) = e.val := by
    rw [get_while_before _ hpre1]; simp [get_while, hk]
  have hpost : ∀ x ∈ post, x.key ≠ k := by
    intro x hx hxk
    rw [List.map_append, List.map_cons, List.nodup_append] at hnd
    have h2 := (List.nodup_cons.1 hnd.2.1).1
    exact h2 (List.mem_map.2 ⟨x, hx, by rw [hxk, hk]⟩)
  rw [hg]
  refine ⟨he.2.2, ?_⟩
  rcases hc with ⟨h1, h2, h3⟩ | ⟨h1, h2, h3, h4⟩ | ⟨h1, h2, h3, h4⟩
  · subst h2 h3
    refine ⟨by rw [hg, h1], fun _ _ => rfl, ⟨hall, hnd⟩, by simp [h1], ?_⟩
    simp [← h1, he.2.2]
  · subst h3 h4
    refine ⟨?_, ?_, ⟨?_, ?_⟩, ?_, ?_⟩
    · rw [get_while_before _ hpre1, get_while_eq_zero hpost, h2]
    · intro k1 hk1
      have hne : e.key ≠ k1 := by rw [hk]; exact fun h => hk1 h.symm
      rw [get_while_skip pre post hne]
    · intro x hx
      exact hall x (by simp only [List.mem_append, List.mem_cons] at hx ⊢; tauto)
    · refine hnd.sublist (List.Sublist.map _ ?_)
      exact List.Sublist.append_left (List.sublist_cons_self e post) pre
    · simp [_keypair_delete, he.2.2, h1]
    · rw [List.perm_iff_count]
      intro a
      simp [h2, List.count_append, List.count_cons]
  · subst h3 h4
    refine ⟨?_, ?_, ⟨?_, ?_⟩, ?_, ?_⟩
    · rw [get_while_before _ hpre1]; simp [get_while, hk]
    · intro k1 hk1
      have hne : e.key ≠ k1 := by rw [hk]; exact fun h => hk1 h.symm
      have hne1 : ({ e with val := v } : keypair).key ≠ k1 := hne
      rw [get_while_skip pre post hne, get_while_skip pre post hne1]
    · intro x hx
      simp only [List.mem_append, List.mem_cons] at hx
      rcases hx with hx | rfl | hx
      · exact hall x (by simp [hx])
      · exact ⟨he.1, he.2.1, h2⟩
      · exact hall x (by simp [hx])
    · simpa using hnd
    · simp [h1]
    · rw [List.perm_iff_count]
      intro a
      simp [h2, List.count_append, List.count_cons]
      omega

theorem set_while_not_found {str_hash : Key → Nat} {size i fdie : Nat} {k : Key} {v : Nat}
    {chain : List keypair} (hok : chain_ok str_hash size i chain)
    (hs : set_while fdie (str_hash k) k v chain = none) : ∀ x ∈ chain, x.key ≠ k :=
  chain_ok_key_ne (fun x hx => (hok.1 x hx).1) (set_while_none.1 hs)

theorem chain_ok_insert {str_hash : Key → Nat} {size i : Nat} {k : Key} {v : Nat}
    {chain : List keypair} (hok : chain_ok str_hash size i chain) (hi : str_hash k % size = i)
    (hv : v ≠ 0) (hk : ∀ x ∈ chain, x.key ≠ k) :
    chain_ok str_hash size i (_keypair_create (str_hash k) v k :: chain) := by
  refine ⟨?_, ?_⟩
  · intro x hx
    rcases List.mem_cons.1 hx with rfl | hx
    · exact ⟨rfl, hi, hv⟩
    · exact hok.1 x hx
  · rw [List.map_cons, List.nodup_cons]
    refine ⟨?_, hok.2⟩
    intro hm
    obtain ⟨x, hx, hxk⟩ := List.mem_map.1 hm
    exact hk x hx hxk

/-! ## Bucket arrays -/

theorem flatten_set {T : Table} {i : Nat} {c : List keypair} (h : T[i]? = some c) :
    ∃ A B, T.flatten = A ++ c ++ B ∧ ∀ c1, (T.set i c1).flatten = A ++ c1 ++ B := by
  induction T generalizing i with
  | nil => simp at h
  | cons a t ih =>
    cases i with
    | zero =>
      simp only [List.getElem?_cons_zero, Option.some.injEq] at h
      subst h
      exact ⟨[], t.flatten, by simp, fun c1 => by simp⟩
    | succ j =>
      simp only [List.getElem?_cons_succ] at h
      obtain ⟨A, B, h1, h2⟩ := ih h
      exact ⟨a ++ A, B, by simp [h1], fun c1 => by simp [h2 c1]⟩

theorem mem_flatten_iff_bucket {T : Table} {e : keypair} :
    e ∈ T.flatten ↔ ∃ (i : Nat) (chain : List keypair), T[i]? = some chain ∧ e ∈ chain := by
  rw [List.mem_flatten]
  constructor
  · rintro ⟨l, hl, he⟩
    obtain ⟨i, hi⟩ := List.mem_iff_getElem?.1 hl
    exact ⟨i, l, hi, he⟩
  · rintro ⟨i, l, hi, he⟩
    exact ⟨l, List.mem_iff_getElem?.2 ⟨i, hi⟩, he⟩

theorem inv_bucket {str_hash : Key → Nat} {d : dict} (hinv : Inv str_hash d) (h : Nat) :
    ∃ threshold size chain, _primes[d.idx]? = some (threshold, size) ∧
      d.table.length = size ∧ d.used ≤ threshold ∧
      d.table[h % size]? = some chain ∧ chain_ok str_hash size (h % size) chain := by
  obtain ⟨threshold, size, hp, hlen, hu, hall⟩ := hinv
  have hpos := (primes_row hp).1
  have hlt : h % size < d.table.length := by rw [hlen]; exact Nat.mod_lt _ hpos
  exact ⟨threshold, size, d.table[h % size], hp, hlen, hu, List.getElem?_eq_getElem hlt,
    hall _ _ (List.getElem?_eq_getElem hlt)⟩

theorem inv_entry {str_hash : Key → Nat} {d : dict} (hinv : Inv str_hash d) {e : keypair}
    (he : e ∈ d.table.flatten) :
    ∃ threshold size chain, _primes[d.idx]? = some (threshold, size) ∧
      d.table[str_hash e.key % size]? = some chain ∧ e ∈ chain ∧
      chain_ok str_hash size (str_hash e.key % size) chain := by
  obtain ⟨threshold, size, hp, hlen, hu, hall⟩ := hinv
  obtain ⟨i, chain, hi, hec⟩ := mem_flatten_iff_bucket.1 he
  have hok := hall i chain hi
  obtain ⟨h1, h2, -⟩ := hok.1 e hec
  rw [h1] at h2
  subst h2
  exact ⟨threshold, size, chain, hp, hi, hec, hok⟩

theorem dict_get_of_mem {str_hash : Key → Nat} {d : dict} (hinv : Inv str_hash d) {e : keypair}
    (he : e ∈ d.table.flatten) : dict_get str_hash d e.key = some e.val := by
  obtain ⟨threshold, size, chain, hp, hi, hec, hok⟩ := inv_entry hinv he
  simp only [dict_get, hp, hi]
  rw [get_while_of_mem hok.2 hec]

theorem dict_get_of_not_mem {str_hash : Key → Nat} {d : dict} (hinv : Inv str_hash d) {k : Key}
    (hk : ∀ e ∈ d.table.flatten, e.key ≠ k) : dict_get str_hash d k = some 0 := by
  obtain ⟨threshold, size, chain, hp, -, -, hi, -⟩ := inv_bucket hinv (str_hash k)
  simp only [dict_get, hp, hi]
  rw [get_while_eq_zero]
  intro e he
  exact hk e (mem_flatten_iff_bucket.2 ⟨_, _, hi, he⟩)

theorem dict_get_congr {str_hash : Key → Nat} {d d1 : dict} (hinv : Inv str_hash d)
    (hinv1 : Inv str_hash d1) (hmem : ∀ e, e ∈ d1.table.flatten ↔ e ∈ d.table.flatten)
    (k : Key) : dict_get str_hash d1 k = dict_get str_hash d k := by
  by_cases h : ∃ e ∈ d.table.flatten, e.key = k
  · obtain ⟨e, he, rfl⟩ := h
    rw [dict_get_of_mem hinv he, dict_get_of_mem hinv1 ((hmem e).2 he)]
  · simp only [not_exists, not_and] at h
    rw [dict_get_of_not_mem hinv h,
      dict_get_of_not_mem hinv1 (fun e he => h e ((hmem e).1 he))]

theorem dict_get_cases {str_hash : Key → Nat} {d : dict} (hinv : Inv str_hash d) (k : Key) :
    (dict_get str_hash d k = some 0 ∧ ∀ e ∈ d.table.flatten, e.key ≠ k) ∨
      ∃ e ∈ d.table.flatten, e.key = k ∧ e.val ≠ 0 ∧ dict_get str_hash d k = some e.val := by
  by_cases h : ∃ e ∈ d.table.flatten, e.key = k
  · obtain ⟨e, he, rfl⟩ := h
    obtain ⟨_, _, chain, -, -, hec, hok⟩ := inv_entry hinv he
    exact Or.inr ⟨e, he, rfl, (hok.1 e hec).2.2, dict_get_of_mem hinv he⟩
  · simp only [not_exists, not_and] at h
    exact Or.inl ⟨dict_get_of_not_mem hinv h, h⟩

theorem inv_nodup {str_hash : Key → Nat} {d : dict} (hinv : Inv str_hash d) :
    (d.table.flatten.map keypair.key).Nodup := by
  obtain ⟨threshold, size, hp, hlen, hu, hall⟩ := hinv
  rw [List.map_flatten, List.nodup_flatten]
  refine ⟨?_, ?_⟩
  · intro l hl
    obtain ⟨c, hc, rfl⟩ := List.mem_map.1 hl
    obtain ⟨i, hi⟩ := List.mem_iff_getElem?.1 hc
    exact (hall i c hi).2
  · rw [List.pairwise_map, List.pairwise_iff_getElem]
    intro i j hi hj hij
    have h1 := hall i _ (List.getElem?_eq_getElem hi)
    have h2 := hall j _ (List.getElem?_eq_getElem hj)
    intro a ha hb
    obtain ⟨x, hx, rfl⟩ := List.mem_map.1 ha
    obtain ⟨y, hy, hyx⟩ := List.mem_map.1 hb
    have e1 := h1.1 x hx
    have e2 := h2.1 y hy
    have : i = j := by rw [← e1.2.1, ← e2.2.1, e1.1, e2.1, hyx]
    omega

/-! ## The body of `dict_set` -/

theorem bucket_update {str_hash : Key → Nat} {d : dict} {k : Key} {v u threshold size : Nat}
    {chain c1 : List keypair} (hp : _primes[d.idx]? = some (threshold, size))
    (hlen : d.table.length = size)
    (hall : ∀ i chain, d.table[i]? = some chain → chain_ok str_hash size i chain)
    (hi : d.table[str_hash k % size]? = some chain) (hu : u ≤ threshold)
    (h1 : chain_ok str_hash size (str_hash k % size) c1) (h2 : get_while k c1 = v)
    (h3 : ∀ k1, k1 ≠ k → get_while k1 c1 = get_while k1 chain) :
    Inv str_hash { d with table := d.table.set (str_hash k % size) c1, used := u } ∧
      dict_get str_hash { d with table := d.table.set (str_hash k % size) c1, used := u } k
        = some v ∧
      ∀ k1, k1 ≠ k →
        dict_get str_hash { d with table := d.table.set (str_hash k % size) c1, used := u } k1
          = dict_get str_hash d k1 := by
  have hlt : str_hash k % size < d.table.length := (List.getElem?_eq_some.1 hi).1
  refine ⟨⟨threshold, size, hp, by simp [hlen], hu, ?_⟩, ?_, ?_⟩
  · intro j cj hj
    simp only [List.getElem?_set] at hj
    split_ifs at hj with e1
    · simp only [Option.some.injEq] at hj
      subst hj e1
      exact h1
    · exact hall j cj hj
  · simp only [dict_get, hp, List.getElem?_set, if_true, hlt, h2]
  · intro k1 hk1
    simp only [dict_get, hp, List.getElem?_set]
    by_cases e1 : str_hash k % size = str_hash k1 % size
    · simp only [e1, if_true]
      rw [← e1, if_pos hlt, hi]
      simp only [h3 k1 hk1]
    · simp only [e1, if_false]

theorem live_update {d : dict} {i : Nat} {chain : List keypair} {X Y : List Nat}
    (c1 : List keypair) (u : Nat) (hi : d.table[i]? = some chain)
    (hperm : (c1.map keypair.val ++ X).Perm (chain.map keypair.val ++ Y)) :
    (live { d with table := d.table.set i c1, used := u } ++ X).Perm (live d ++ Y) := by
  obtain ⟨A, B, hA, hB⟩ := flatten_set hi
  simp only [live, hA, hB c1]
  rw [List.perm_iff_count] at hperm ⊢
  intro a
  have := hperm a
  simp only [List.map_append, List.count_append] at this ⊢
  omega

theorem dict_set_body_spec {str_hash : Key → Nat} {d : dict} (hinv : Inv str_hash d)
    (hroom : ∀ threshold size, _primes[d.idx]? = some (threshold, size) → d.used < threshold)
    (k : Key) (v : Nat) :
    ∃ d1 log g, dict_set_body str_hash d k v = some (d1, log) ∧
      dict_get str_hash d k = some g ∧ Inv str_hash d1 ∧ d1.fdie = d.fdie ∧ d1.idx = d.idx ∧
      dict_get str_hash d1 k = some v ∧
      (∀ k1, k1 ≠ k → dict_get str_hash d1 k1 = dict_get str_hash d k1) ∧
      d1.used = (if g = 0 ∧ v ≠ 0 then d.used + 1 else d.used) ∧
      log = (if d.fdie ≠ 0 ∧ g ≠ 0 ∧ g ≠ v then [g] else []) ∧
      (live d1 ++ if g ≠ 0 then [g] else []).Perm (live d ++ if v ≠ 0 then [v] else []) := by
  obtain ⟨threshold, size, chain, hp, hlen, hu, hi, hok⟩ := inv_bucket hinv (str_hash k)
  have hall : ∀ i chain, d.table[i]? = some chain → chain_ok str_hash size i chain := by
    obtain ⟨t1, s1, hp1, -, -, hall⟩ := hinv
    rw [hp] at hp1
    simp only [Option.some.injEq, Prod.mk.injEq] at hp1
    obtain ⟨-, rfl⟩ := hp1
    exact hall
  have hget : dict_get str_hash d k = some (get_while k chain) := by
    simp only [dict_get, hp, hi]
  cases hs : set_while d.fdie (str_hash k) k v chain with
  | none =>
    have hk := set_while_not_found hok hs
    have hg : get_while k chain = 0 := get_while_eq_zero hk
    by_cases hv : v = 0
    · subst hv
      refine ⟨d, [], 0, ?_, by rw [hget, hg], hinv, rfl, rfl, by rw [hget, hg],
        fun _ _ => rfl, by simp, by simp, by simp⟩
      simp only [dict_set_body, hp, hi, hs, ne_eq, not_true_eq_false, if_false]
    · have hthr := hroom _ _ hp
      have hmax := (primes_row hp).2.1
      have hmod : (d.used + 1) % 2 ^ 32 = d.used + 1 := by
        apply Nat.mod_eq_of_lt
        unfold UINT_MAX at hmax
        omega
      obtain ⟨i1, i2, i3⟩ := bucket_update (u := d.used + 1) (v := v) hp hlen hall hi
        (by omega) (chain_ok_insert hok rfl hv hk)
        (by simp [get_while, _keypair_create])
        (fun k1 hk1 => by
          have : ¬ k = k1 := fun h => hk1 h.symm
          simp [get_while, _keypair_create, this])
      refine ⟨_, [], 0, ?_, by rw [hget, hg], i1, rfl, rfl, i2, i3, by simp [hv], by simp, ?_⟩
      · simp only [dict_set_body, hp, hi, hs, hv, ne_eq, not_false_eq_true, if_true, hmod]
      · have := live_update (d := d) (X := []) (Y := [v])
          (_keypair_create (str_hash k) v k :: chain) (d.used + 1) hi
          (by simp [_keypair_create, List.perm_iff_count, List.count_cons])
        simpa [hv] using this
  | some r =>
    obtain ⟨c1, log⟩ := r
    obtain ⟨f1, f2, f3, f4, f5, f6⟩ := set_while_found hok hs
    obtain ⟨i1, i2, i3⟩ := bucket_update (u := d.used) (v := v) hp hlen hall hi hu f4 f2 f3
    refine ⟨_, log, get_while k chain, ?_, hget, i1, rfl, rfl, i2, i3, by simp [f1], ?_, ?_⟩
    · simp only [dict_set_body, hp, hi, hs]
    · rw [f5]; simp [f1]
    · have := live_update (d := d) c1 d.used hi f6
      simpa [f1] using this

/-! ## The resize check -/

theorem resize_while_spec (prime : Nat) (es : List keypair) :
    ∀ T : Table, T.length = prime → 0 < prime →
      ∃ T1, resize_while prime es T = some T1 ∧ T1.length = prime ∧
        T1.flatten.Perm (es ++ T.flatten) ∧
        ∀ j c1, T1[j]? = some c1 → ∀ e ∈ c1,
          (e ∈ es ∧ e.hash % prime = j) ∨ ∃ c, T[j]? = some c ∧ e ∈ c := by
  induction es with
  | nil =>
    intro T hT _
    exact ⟨T, rfl, hT, by simp, fun j c1 hj e he => Or.inr ⟨c1, hj, he⟩⟩
  | cons a t ih =>
    intro T hT hpos
    have hlt : a.hash % prime < T.length := by rw [hT]; exact Nat.mod_lt _ hpos
    have hi : T[a.hash % prime]? = some T[a.hash % prime] := List.getElem?_eq_getElem hlt
    obtain ⟨T1, h1, h2, h3, h4⟩ :=
      ih (T.set (a.hash % prime) (a :: T[a.hash % prime])) (by simp [hT]) hpos
    refine ⟨T1, ?_, h2, ?_, ?_⟩
    · rw [resize_while, hi]; exact h1
    · obtain ⟨A, B, hA, hB⟩ := flatten_set hi
      rw [hB] at h3
      refine h3.trans ?_
      rw [hA, List.perm_iff_count]
      intro x
      simp only [List.count_append, List.count_cons]
      omega
    · intro j c1 hj e he
      rcases h4 j c1 hj e he with ⟨hm, hh⟩ | ⟨c, hc, hec⟩
      · exact Or.inl ⟨List.mem_cons_of_mem _ hm, hh⟩
      · simp only [List.getElem?_set] at hc
        split_ifs at hc with e1
        · simp only [Option.some.injEq] at hc
          subst hc
          rcases List.mem_cons.1 hec with rfl | hm
          · exact Or.inl ⟨List.mem_cons_self _ _, e1⟩
          · exact Or.inr ⟨_, by rw [← e1]; exact hi, hm⟩
        · exact Or.inr ⟨c, hc, hec⟩

theorem resize_while_append {prime : Nat} (a b : List keypair) :
    ∀ T : Table, resize_while prime (a ++ b) T
      = (resize_while prime a T).bind (resize_while prime b) := by
  induction a with
  | nil => intro T; rfl
  | cons x t ih =>
    intro T
    simp only [List.cons_append, resize_while]
    cases T[x.hash % prime]? with
    | none => rfl
    | some head => exact ih _

theorem resize_for_eq (old : Table) (prime : Nat) :
    ∀ (n i : Nat) (T : Table), i + n ≤ old.length →
      resize_for old prime n i T = resize_while prime ((old.drop i).take n).flatten T := by
  intro n
  induction n with
  | zero => intro i T _; simp [resize_for, resize_while]
  | succ n ih =>
    intro i T h
    have hlt : i < old.length := by omega
    rw [resize_for, List.getElem?_eq_getElem hlt, List.drop_eq_getElem_cons hlt,
      List.take_succ_cons, List.flatten_cons, resize_while_append]
    cases hr : resize_while prime old[i] T with
    | none => simp [hr]
    | some T1 => simp [hr, ih (i + 1) T1 (by omega)]

theorem dict_resize_spec {str_hash : Key → Nat} {d : dict} (hinv : Inv str_hash d)
    (hb : below_ceiling d) :
    ∃ d1, _dict_resize d = some d1 ∧ Inv str_hash d1 ∧ d1.fdie = d.fdie ∧ d1.used = d.used ∧
      (∀ threshold size, _primes[d1.idx]? = some (threshold, size) → d1.used < threshold) ∧
      (live d1).Perm (live d) ∧
      (∀ k, dict_get str_hash d1 k = dict_get str_hash d k) ∧
      ∀ threshold size, _primes[d.idx]? = some (threshold, size) →
        (d.used < threshold → d1 = d) ∧ (threshold ≤ d.used → d1.idx = d.idx + 1) := by
  obtain ⟨threshold, size, hp, hlen, hu, hall⟩ := id hinv
  by_cases hlt : d.used < threshold
  · refine ⟨d, ?_, hinv, rfl, rfl, ?_, List.Perm.refl _, fun _ => rfl, ?_⟩
    · simp only [_dict_resize, hp, hlt, if_true]
    · intro t s h
      rw [hp] at h
      simp only [Option.some.injEq, Prod.mk.injEq] at h
      omega
    · intro t s h
      rw [hp] at h
      simp only [Option.some.injEq, Prod.mk.injEq] at h
      exact ⟨fun _ => rfl, fun h1 => by omega⟩
  · have hrow := primes_row hp
    have hidx : d.idx < 25 := by
      rcases hb with h | h
      · exact h
      · have := primes_lt hp
        by_contra hc
        have h25 : d.idx = 25 := by omega
        rw [h25, primes_eq] at hp
        simp at hp
        unfold UINT_MAX at h
        omega
    obtain ⟨threshold1, prime, hp1, hthr, hpos⟩ := primes_next hp hidx
    have hfor := resize_for_eq d.table prime size 0
      (List.replicate prime []) (by omega)
    rw [List.drop_zero, ← hlen, List.take_length] at hfor
    obtain ⟨T1, h1, h2, h3, h4⟩ := resize_while_spec prime d.table.flatten
      (List.replicate prime []) (by simp) hpos
    rw [List.flatten_replicate_nil, List.append_nil] at h3
    have hmem : ∀ e, e ∈ T1.flatten ↔ e ∈ d.table.flatten := fun e => h3.mem_iff
    have hnd : (T1.flatten.map keypair.key).Nodup :=
      ((h3.map keypair.key).nodup_iff).2 (inv_nodup hinv)
    have hinv1 : Inv str_hash { d with idx := d.idx + 1, table := T1 } := by
      refine ⟨threshold1, prime, hp1, h2, by simp only; omega, ?_⟩
      intro j c1 hj
      refine ⟨?_, ?_⟩
      · intro e he
        have hj4 := h4 j c1 hj e he
        rcases hj4 with ⟨hm, hh⟩ | ⟨c, hc, hec⟩
        · obtain ⟨_, _, chain, -, -, hec, hok⟩ := inv_entry hinv hm
          have := hok.1 e hec
          exact ⟨this.1, hh, this.2.2⟩
        · rw [List.getElem?_replicate] at hc
          split_ifs at hc
          simp only [Option.some.injEq] at hc
          subst hc
          simp at hec
      · exact hnd.sublist
          ((List.sublist_flatten_of_mem (List.mem_iff_getElem?.2 ⟨j, hj⟩)).map _)
    refine ⟨{ d with idx := d.idx + 1, table := T1 }, ?_, hinv1, rfl, rfl, ?_, ?_, ?_, ?_⟩
    · simp only [_dict_resize, hp, hlt, if_false, hp1]
      rw [← hlen, hfor, h1]
    · intro t s h
      simp only at h
      rw [hp1] at h
      simp only [Option.some.injEq, Prod.mk.injEq] at h
      simp only
      omega
    · exact h3.map _
    · exact dict_get_congr hinv hinv1 hmem
    · intro t s h
      rw [hp] at h
      simp only [Option.some.injEq, Prod.mk.injEq] at h
      exact ⟨fun h1 => by omega, fun _ => rfl⟩

/-! ## `dict_set`, `dict_create` and the reachable dictionaries -/

theorem dict_set_spec {str_hash : Key → Nat} {d : dict} (hinv : Inv str_hash d)
    (hb : below_ceiling d) (k : Key) (v : Nat) :
    ∃ d1 log g, dict_set str_hash d k v = some (d1, log) ∧
      dict_get str_hash d k = some g ∧ Inv str_hash d1 ∧ d1.fdie = d.fdie ∧
      dict_get str_hash d1 k = some v ∧
      (∀ k1, k1 ≠ k → dict_get str_hash d1 k1 = dict_get str_hash d k1) ∧
      d1.used = (if g = 0 ∧ v ≠ 0 then d.used + 1 else d.used) ∧
      log = (if d.fdie ≠ 0 ∧ g ≠ 0 ∧ g ≠ v then [g] else []) ∧
      (live d1 ++ if g ≠ 0 then [g] else []).Perm (live d ++ if v ≠ 0 then [v] else []) := by
  obtain ⟨d0, r1, r2, r3, r4, r5, r6, r7, -⟩ := dict_resize_spec hinv hb
  obtain ⟨d1, log, g, s1, s2, s3, s4, -, s6, s7, s8, s9, s10⟩ := dict_set_body_spec r2 r5 k v
  refine ⟨d1, log, g, ?_, by rw [← r7, s2], s3, by rw [s4, r3], s6, ?_, by rw [s8, r4],
    by rw [s9, r3], ?_⟩
  · simp only [dict_set, r1, s1]
  · intro k1 hk1
    rw [s7 k1 hk1, r7]
  · exact s10.trans (List.Perm.append_right _ r6)

theorem dict_resize_none_at_ceiling {str_hash : Key → Nat} {d : dict} (hinv : Inv str_hash d)
    (hb : ¬ below_ceiling d) : _dict_resize d = none := by
  obtain ⟨threshold, size, hp, -, -, -⟩ := hinv
  have hlt := primes_lt hp
  have hrow := primes_row hp
  simp only [below_ceiling, not_or, not_lt] at hb
  have h25 : d.idx = 25 := by omega
  have hnext : _primes[d.idx + 1]? = none := by
    rw [h25, primes_eq]; rfl
  simp only [_dict_resize, hp, hnext]
  rw [if_neg (by omega)]

theorem dict_set_none_at_ceiling {str_hash : Key → Nat} {d : dict} (hinv : Inv str_hash d)
    (hb : ¬ below_ceiling d) (k : Key) (v : Nat) : dict_set str_hash d k v = none := by
  simp only [dict_set, dict_resize_none_at_ceiling hinv hb]

theorem dict_create_eq (fdie : Nat) :
    dict_create fdie = some { fdie := fdie, idx := 0, used := 0, table := List.replicate 53 [] } := by
  rfl

theorem inv_create {str_hash : Key → Nat} {fdie : Nat} {d : dict}
    (h : dict_create fdie = some d) : Inv str_hash d := by
  rw [dict_create_eq] at h
  simp only [Option.some.injEq] at h
  subst h
  refine ⟨63, 53, by rw [primes_eq]; rfl, by simp, by simp, ?_⟩
  intro i chain hi
  simp only [List.getElem?_replicate] at hi
  split_ifs at hi
  simp only [Option.some.injEq] at hi
  subst hi
  exact ⟨by simp, by simp⟩

theorem inv_of_reachable {str_hash : Key → Nat} {d : dict} (hr : Reachable str_hash d) :
    Inv str_hash d := by
  induction hr with
  | create fdie d h => exact inv_create h
  | set d k v d1 log _ hs ih =>
    by_cases hb : below_ceiling d
    · obtain ⟨d2, log2, g, s1, -, s3, -⟩ := dict_set_spec ih hb k v
      rw [hs] at s1
      simp only [Option.some.injEq, Prod.mk.injEq] at s1
      rw [s1.1]
      exact s3
    · rw [dict_set_none_at_ceiling ih hb] at hs
      simp at hs

theorem reachable_run {str_hash : Key → Nat} (calls : List (Key × Nat)) :
    ∀ {d d1 : dict} {log : List Nat}, Reachable str_hash d →
      run str_hash d calls = some (d1, log) → Reachable str_hash d1 := by
  induction calls with
  | nil =>
    intro d d1 log hr h
    simp only [run, Option.some.injEq, Prod.mk.injEq] at h
    rw [← h.1]; exact hr
  | cons c t ih =>
    intro d d1 log hr h
    obtain ⟨k, v⟩ := c
    simp only [run] at h
    cases hs : dict_set str_hash d k v with
    | none => simp [hs] at h
    | some r =>
      obtain ⟨d2, l2⟩ := r
      cases hrun : run str_hash d2 t with
      | none => simp [hs, hrun] at h
      | some r2 =>
        obtain ⟨d3, l3⟩ := r2
        simp only [hs, hrun, Option.some.injEq, Prod.mk.injEq] at h
        rw [← h.1]
        exact ih (Reachable.set d k v d2 l2 hr hs) hrun

theorem run_append {str_hash : Key → Nat} (a b : List (Key × Nat)) :
    ∀ {d d1 d2 : dict} {l1 l2 : List Nat}, run str_hash d a = some (d1, l1) →
      run str_hash d1 b = some (d2, l2) → run str_hash d (a ++ b) = some (d2, l1 ++ l2) := by
  induction a with
  | nil =>
    intro d d1 d2 l1 l2 h1 h2
    simp only [run, Option.some.injEq, Prod.mk.injEq] at h1
    obtain ⟨rfl, rfl⟩ := h1
    simpa using h2
  | cons c t ih =>
    intro d d1 d2 l1 l2 h1 h2
    obtain ⟨k, v⟩ := c
    simp only [run] at h1
    cases hs : dict_set str_hash d k v with
    | none => simp [hs] at h1
    | some r =>
      obtain ⟨d3, l3⟩ := r
      cases hrun : run str_hash d3 t with
      | none => simp [hs, hrun] at h1
      | some r2 =>
        obtain ⟨d4, l4⟩ := r2
        simp only [hs, hrun, Option.some.injEq, Prod.mk.injEq] at h1
        obtain ⟨rfl, rfl⟩ := h1
        have h3 := ih hrun h2
        show run str_hash d ((k, v) :: (t ++ b)) = _
        simp only [run, hs, h3, List.append_assoc]

theorem run_append_none {str_hash : Key → Nat} (a b : List (Key × Nat)) :
    ∀ {d d1 : dict} {l1 : List Nat}, run str_hash d a = some (d1, l1) →
      run str_hash d1 b = none → run str_hash d (a ++ b) = none := by
  induction a with
  | nil =>
    intro d d1 l1 h1 h2
    simp only [run, Option.some.injEq, Prod.mk.injEq] at h1
    obtain ⟨rfl, rfl⟩ := h1
    simpa using h2
  | cons c t ih =>
    intro d d1 l1 h1 h2
    obtain ⟨k, v⟩ := c
    simp only [run] at h1
    cases hs : dict_set str_hash d k v with
    | none => simp [hs] at h1
    | some r =>
      obtain ⟨d3, l3⟩ := r
      cases hrun : run str_hash d3 t with
      | none => simp [hs, hrun] at h1
      | some r2 =>
        obtain ⟨d4, l4⟩ := r2
        simp only [hs, hrun, Option.some.injEq, Prod.mk.injEq] at h1
        obtain ⟨rfl, rfl⟩ := h1
        have h3 := ih hrun h2
        show run str_hash d ((k, v) :: (t ++ b)) = _
        simp only [run, hs, h3]

/-! ## Filling a dictionary up to the capacity ceiling -/

theorem fill_spec (str_hash : Key → Nat) (fdie : Nat) (d0 : dict)
    (h0 : dict_create fdie = some d0) (n : Nat) (hn : n ≤ UINT_MAX) :
    ∃ d log, run str_hash d0 (fill n) = some (d, log) ∧ Reachable str_hash d ∧
      d.fdie = fdie ∧ d.used = n ∧
      ∀ m, dict_get str_hash d [m] = some (if m < n then m + 1 else 0) := by
  induction n with
  | zero =>
    refine ⟨d0, [], rfl, Reachable.create fdie d0 h0, ?_, ?_, ?_⟩
    · rw [dict_create_eq] at h0
      simp only [Option.some.injEq] at h0
      rw [← h0]
    · rw [dict_create_eq] at h0
      simp only [Option.some.injEq] at h0
      rw [← h0]
    · intro m
      rw [dict_get_of_not_mem (inv_create h0)]
      · simp
      · rw [dict_create_eq] at h0
        simp only [Option.some.injEq] at h0
        rw [← h0]
        simp
  | succ n ih =>
    obtain ⟨d, log, h1, h2, h3, h4, h5⟩ := ih (by omega)
    have hinv := inv_of_reachable h2
    have hb : below_ceiling d := Or.inr (by rw [h4]; omega)
    obtain ⟨d1, log1, g, s1, s2, s3, s4, s5, s6, s7, -⟩ := dict_set_spec hinv hb [n] (n + 1)
    have hg : g = 0 := by
      rw [h5 n] at s2
      simpa using s2.symm
    have hrun1 : run str_hash d [([n], n + 1)] = some (d1, log1 ++ []) := by
      simp only [run, s1]
    refine ⟨d1, log ++ (log1 ++ []), ?_, Reachable.set d [n] (n + 1) d1 log1 h2 s1,
      by rw [s4, h3], by rw [s7, h4]; simp [hg], ?_⟩
    · rw [fill, List.range_succ, List.map_append]
      exact run_append _ _ h1 hrun1
    · intro m
      by_cases hm : m = n
      · subst hm
        rw [s5]; simp
      · rw [s6 [m] (by simpa using hm), h5 m]
        have : (m < n + 1) = (m < n) := by
          apply propext; omega
        simp only [this]

theorem ceiling_of_used {str_hash : Key → Nat} {d : dict} (hinv : Inv str_hash d)
    (hu : d.used = UINT_MAX) : ¬ below_ceiling d := by
  obtain ⟨threshold, size, hp, -, hle, -⟩ := hinv
  have h25 := (primes_row hp).2.2 (by omega)
  simp only [below_ceiling, not_or, not_lt]
  omega

/-! ## `dict_delete` and whole lifetimes -/

theorem delete_while_append (fdie : Nat) (a b : List keypair) :
    delete_while fdie (a ++ b) = delete_while fdie a ++ delete_while fdie b := by
  induction a with
  | nil => rfl
  | cons x t ih => simp [delete_while, ih]

theorem delete_for_eq (fdie : Nat) (T : Table) :
    ∀ (n i : Nat), i + n ≤ T.length →
      delete_for fdie T n i = some (delete_while fdie ((T.drop i).take n).flatten) := by
  intro n
  induction n with
  | zero => intro i _; simp [delete_for, delete_while]
  | succ n ih =>
    intro i h
    have hlt : i < T.length := by omega
    rw [delete_for, List.getElem?_eq_getElem hlt, List.drop_eq_getElem_cons hlt,
      List.take_succ_cons, List.flatten_cons, delete_while_append]
    simp only [ih (i + 1) (by omega)]

theorem delete_while_fdie {fdie : Nat} {es : List keypair} (hf : fdie ≠ 0)
    (hv : ∀ e ∈ es, e.val ≠ 0) : delete_while fdie es = es.map keypair.val := by
  induction es with
  | nil => rfl
  | cons x t ih =>
    simp only [List.mem_cons, forall_eq_or_imp] at hv
    simp [delete_while, _keypair_delete, hf, hv.1, ih hv.2]

theorem delete_while_null (es : List keypair) : delete_while 0 es = [] := by
  induction es with
  | nil => rfl
  | cons x t ih => simp [delete_while, _keypair_delete, ih]

theorem dict_delete_spec {str_hash : Key → Nat} {d : dict} (hinv : Inv str_hash d) :
    dict_delete (some d) = some (if d.fdie ≠ 0 then live d else []) := by
  obtain ⟨threshold, size, hp, hlen, -, hall⟩ := hinv
  have h := delete_for_eq d.fdie d.table size 0 (by omega)
  rw [List.drop_zero, ← hlen, List.take_length] at h
  simp only [dict_delete, hp]
  rw [← hlen, h]
  by_cases hf : d.fdie = 0
  · rw [hf, delete_while_null]; simp
  · rw [if_pos hf, delete_while_fdie hf]
    · rfl
    · intro e he
      obtain ⟨i, chain, hi, hec⟩ := mem_flatten_iff_bucket.1 he
      exact ((hall i chain hi).1 e hec).2.2

theorem mem_live_of_get {str_hash : Key → Nat} {d : dict} (hinv : Inv str_hash d) {k : Key}
    {g : Nat} (hg : dict_get str_hash d k = some g) (hne : g ≠ 0) : g ∈ live d := by
  rcases dict_get_cases hinv k with ⟨h, -⟩ | ⟨e, he, -, -, h⟩
  · rw [hg] at h
    simp only [Option.some.injEq] at h
    exact absurd h hne
  · rw [hg] at h
    simp only [Option.some.injEq] at h
    rw [h]
    exact List.mem_map.2 ⟨e, he, rfl⟩

theorem passed_cons (k : Key) (v : Nat) (calls : List (Key × Nat)) :
    passed ((k, v) :: calls) = (if v ≠ 0 then [v] else []) ++ passed calls := by
  by_cases hv : v = 0 <;> simp [passed, hv]

theorem run_spec {str_hash : Key → Nat} (calls : List (Key × Nat)) :
    ∀ d : dict, Inv str_hash d → d.fdie ≠ 0 → d.used + calls.length ≤ UINT_MAX →
      (passed calls).Nodup → (∀ v ∈ passed calls, v ∉ live d) →
      ∃ d1 log, run str_hash d calls = some (d1, log) ∧ Inv str_hash d1 ∧
        d1.fdie = d.fdie ∧ (log ++ live d1).Perm (live d ++ passed calls) := by
  induction calls with
  | nil =>
    intro d hinv _ _ _ _
    exact ⟨d, [], rfl, hinv, rfl, by simp [passed]⟩
  | cons c t ih =>
    intro d hinv hf hlen hnd hfresh
    obtain ⟨k, v⟩ := c
    rw [passed_cons] at hnd hfresh
    simp only [List.length_cons] at hlen
    have hb : below_ceiling d := Or.inr (by omega)
    obtain ⟨d1, log, g, s1, s2, s3, s4, -, -, s7, s8, s9⟩ := dict_set_spec hinv hb k v
    have hgv : g ≠ 0 → g ≠ v := by
      intro hg0 hgv
      have hmem := mem_live_of_get hinv s2 hg0
      rw [hgv] at hmem hg0
      exact hfresh v (by simp [hg0]) hmem
    have hlog : log = if g ≠ 0 then [g] else [] := by
      rw [s8]
      by_cases hg0 : g = 0
      · simp [hg0]
      · simp [hg0, hf, hgv hg0]
    have hstep : (log ++ live d1).Perm (live d ++ if v ≠ 0 then [v] else []) := by
      rw [hlog]
      exact List.perm_append_comm.trans s9
    have hnd1 : (passed t).Nodup := (List.nodup_append.1 hnd).2.1
    have hfresh1 : ∀ w ∈ passed t, w ∉ live d1 := by
      intro w hw hmem
      have h1 : w ∈ log ++ live d1 := List.mem_append_right _ hmem
      rw [hstep.mem_iff, List.mem_append] at h1
      rcases h1 with h1 | h1
      · exact hfresh w (List.mem_append_right _ hw) h1
      · exact (List.nodup_append.1 hnd).2.2 h1 hw
    have hused : d1.used ≤ d.used + 1 := by
      rw [s7]; split_ifs <;> omega
    obtain ⟨d2, log2, r1, r2, r3, r4⟩ := ih d1 s3 (by rw [s4]; exact hf) (by omega) hnd1 hfresh1
    refine ⟨d2, log ++ log2, ?_, r2, by rw [r3, s4], ?_⟩
    · simp only [run, s1, r1]
    · rw [passed_cons, List.append_assoc, ← List.append_assoc (live d)]
      exact (List.Perm.append_left log r4).trans
        ((List.append_assoc log (live d1) (passed t) ▸
          List.Perm.append_right (passed t) hstep))

theorem lifetime_spec {str_hash : Key → Nat} {fdie : Nat} {calls : List (Key × Nat)}
    (hf : fdie ≠ 0) (hlen : calls.length ≤ UINT_MAX) (hnd : (passed calls).Nodup) :
    ∃ log, lifetime str_hash fdie calls = some log ∧ log.Perm (passed calls) := by
  have h0 := dict_create_eq fdie
  have hinv : Inv str_hash _ := inv_create h0
  obtain ⟨d1, log, r1, r2, r3, r4⟩ := run_spec calls _ hinv hf (by simpa using hlen) hnd
    (by simp [live])
  refine ⟨log ++ live d1, ?_, by simpa [live] using r4⟩
  have hf1 : d1.fdie ≠ 0 := by rw [r3]; exact hf
  simp only [lifetime, h0, r1, dict_delete_spec r2, if_pos hf1]

theorem dict_get_total {str_hash : Key → Nat} {d : dict} (hinv : Inv str_hash d) (k : Key) :
    ∃ g, dict_get str_hash d k = some g := by
  rcases dict_get_cases hinv k with ⟨h, -⟩ | ⟨e, -, -, -, h⟩
  · exact ⟨0, h⟩
  · exact ⟨e.val, h⟩

/-! ## Further consequences of the invariant -/

theorem get_exact_while_eq {str_hash : Key → Nat} {k : Key} {chain : List keypair}
    (h : ∀ e ∈ chain, e.hash = str_hash e.key) :
    get_exact_while (str_hash k) k chain = get_while k chain := by
  induction chain with
  | nil => rfl
  | cons a t ih =>
    simp only [List.mem_cons, forall_eq_or_imp] at h
    simp only [get_exact_while, get_while, ih h.2]
    by_cases hk : a.key = k
    · have hh : a.hash = str_hash k := by rw [h.1, hk]
      simp [hk, hh]
    · simp [hk]

theorem dict_get_exact_eq {str_hash : Key → Nat} {d : dict} (hinv : Inv str_hash d) (k : Key) :
    dict_get_exact str_hash d k = dict_get str_hash d k := by
  obtain ⟨threshold, size, chain, hp, -, -, hi, hok⟩ := inv_bucket hinv (str_hash k)
  simp only [dict_get_exact, dict_get, hp, hi]
  rw [get_exact_while_eq (fun e he => (hok.1 e he).1)]

theorem dict_set_step {str_hash : Key → Nat} {d : dict} (hinv : Inv str_hash d)
    (hb : below_ceiling d) (k : Key) (v : Nat) :
    ∃ d1 log g threshold size, dict_set str_hash d k v = some (d1, log) ∧
      dict_get str_hash d k = some g ∧ _primes[d.idx]? = some (threshold, size) ∧
      Inv str_hash d1 ∧
      (d.used < threshold → d1.idx = d.idx) ∧ (threshold ≤ d.used → d1.idx = d.idx + 1) ∧
      d1.used = (if g = 0 ∧ v ≠ 0 then d.used + 1 else d.used) ∧
      d1.table.flatten.length + (if g ≠ 0 then 1 else 0)
        = d.table.flatten.length + (if v ≠ 0 then 1 else 0) := by
  obtain ⟨threshold, size, hp, -⟩ := id hinv
  obtain ⟨d0, r1, r2, r3, r4, r5, r6, r7, r8⟩ := dict_resize_spec hinv hb
  obtain ⟨d1, log, g, s1, s2, s3, s4, s5, s6, s7, s8, s9, s10⟩ := dict_set_body_spec r2 r5 k v
  refine ⟨d1, log, g, threshold, size, ?_, by rw [← r7, s2], hp, s3, ?_, ?_, by rw [s8, r4], ?_⟩
  · simp only [dict_set, r1, s1]
  · intro h; rw [s5, (r8 _ _ hp).1 h]
  · intro h; rw [s5, (r8 _ _ hp).2 h]
  · have h1 := s10.length_eq
    have h2 := r6.length_eq
    simp only [live, List.length_append, List.length_map] at h1 h2
    rw [← h2]
    convert h1 using 2 <;> split_ifs <;> rfl

theorem resize_while_exact (prime : Nat) (es : List keypair) :
    ∀ (T T1 : Table), resize_while prime es T = some T1 →
      ∀ j c, T[j]? = some c →
        T1[j]? = some ((es.filter (fun e => e.hash % prime = j)).reverse ++ c) := by
  induction es with
  | nil =>
    intro T T1 h j c hc
    simp only [resize_while, Option.some.injEq] at h
    subst h
    simpa using hc
  | cons a t ih =>
    intro T T1 h j c hc
    simp only [resize_while] at h
    cases hh : T[a.hash % prime]? with
    | none => simp [hh] at h
    | some head =>
      simp only [hh] at h
      have hlt := (List.getElem?_eq_some.1 hh).1
      by_cases hj : a.hash % prime = j
      · subst hj
        rw [hh] at hc
        simp only [Option.some.injEq] at hc
        subst hc
        have h1 := ih _ _ h (a.hash % prime) (a :: head)
          (by simp [List.getElem?_set, hlt])
        simp [h1]
      · have h1 := ih _ _ h j c (by rw [List.getElem?_set_ne hj]; exact hc)
        simp [hj, h1]

theorem dict_resize_advance {d : dict} {threshold size threshold1 prime : Nat}
    (hp : _primes[d.idx]? = some (threshold, size))
    (hp1 : _primes[d.idx + 1]? = some (threshold1, prime)) (hlen : d.table.length = size)
    (hu : threshold ≤ d.used) :
    ∃ T1, _dict_resize d = some { d with idx := d.idx + 1, table := T1 } ∧
      T1.length = prime ∧
      (∀ j, j < prime →
        T1[j]? = some ((d.table.flatten.filter (fun e => e.hash % prime = j)).reverse)) ∧
      T1.flatten.Perm d.table.flatten := by
  have hpos := (primes_row hp1).1
  have hfor := resize_for_eq d.table prime size 0 (List.replicate prime []) (by omega)
  rw [List.drop_zero, ← hlen, List.take_length] at hfor
  obtain ⟨T1, h1, h2, h3, -⟩ := resize_while_spec prime d.table.flatten
    (List.replicate prime []) (by simp) hpos
  rw [List.flatten_replicate_nil, List.append_nil] at h3
  refine ⟨T1, ?_, h2, ?_, h3⟩
  · simp only [_dict_resize, hp, hp1]
    rw [if_neg (by omega), ← hlen, hfor, h1]
  · intro j hj
    have h4 := resize_while_exact prime d.table.flatten _ _ h1 j []
      (by simp [List.getElem?_replicate, hj])
    simpa using h4

theorem reachable_below {str_hash : Key → Nat} {d d1 : dict} {k : Key} {v : Nat}
    {log : List Nat} (hr : Reachable str_hash d)
    (hs : dict_set str_hash d k v = some (d1, log)) : below_ceiling d := by
  by_contra hb
  rw [dict_set_none_at_ceiling (inv_of_reachable hr) hb] at hs
  simp at hs

theorem entries_le_used {str_hash : Key → Nat} {d : dict} (hr : Reachable str_hash d) :
    d.table.flatten.length ≤ d.used := by
  induction hr with
  | create fdie d h =>
    rw [dict_create_eq] at h
    simp only [Option.some.injEq] at h
    rw [← h]; simp
  | set d k v d1 log hr hs ih =>
    obtain ⟨d2, log2, g, threshold, size, s1, -, -, -, -, -, s7, s8⟩ :=
      dict_set_step (inv_of_reachable hr) (reachable_below hr hs) k v
    rw [hs] at s1
    simp only [Option.some.injEq, Prod.mk.injEq] at s1
    obtain ⟨rfl, -⟩ := s1
    rw [s7]
    split_ifs at s8 ⊢ <;> omega

theorem thresholds_passed {str_hash : Key → Nat} {d : dict} (hr : Reachable str_hash d) :
    ∀ i threshold size, i < d.idx → _primes[i]? = some (threshold, size) →
      threshold ≤ d.used := by
  induction hr with
  | create fdie d h =>
    rw [dict_create_eq] at h
    simp only [Option.some.injEq] at h
    rw [← h]
    intro i threshold size hi
    simp at hi
  | set d k v d1 log hr hs ih =>
    obtain ⟨d2, log2, g, threshold, size, s1, -, s3, -, s5, s6, s7, -⟩ :=
      dict_set_step (inv_of_reachable hr) (reachable_below hr hs) k v
    rw [hs] at s1
    simp only [Option.some.injEq, Prod.mk.injEq] at s1
    obtain ⟨rfl, -⟩ := s1
    have hmono : d.used ≤ d1.used := by rw [s7]; split_ifs <;> omega
    intro i t s hi hp
    by_cases hlt : d.used < threshold
    · rw [s5 hlt] at hi
      exact le_trans (ih i t s hi hp) hmono
    · rw [s6 (by omega)] at hi
      by_cases hi2 : i < d.idx
      · exact le_trans (ih i t s hi2 hp) hmono
      · have hid : i = d.idx := by omega
        rw [hid, s3] at hp
        simp only [Option.some.injEq, Prod.mk.injEq] at hp
        omega

theorem undeleted_spec {str_hash : Key → Nat} {d : dict} (hu : Undeleted str_hash d) :
    Reachable str_hash d ∧ d.table.flatten.length = d.used := by
  induction hu with
  | create fdie d h =>
    refine ⟨Reachable.create fdie d h, ?_⟩
    rw [dict_create_eq] at h
    simp only [Option.some.injEq] at h
    rw [← h]; simp
  | set d k v d1 log _ hv hs ih =>
    obtain ⟨hr, hlen⟩ := ih
    refine ⟨Reachable.set d k v d1 log hr hs, ?_⟩
    obtain ⟨d2, log2, g, threshold, size, s1, s2, -, -, -, -, s7, s8⟩ :=
      dict_set_step (inv_of_reachable hr) (reachable_below hr hs) k v
    rw [hs] at s1
    simp only [Option.some.injEq, Prod.mk.injEq] at s1
    obtain ⟨rfl, -⟩ := s1
    rw [s7]
    rcases hv with hv | hv
    · split_ifs at s8 ⊢ <;> omega
    · rw [hv] at s2
      simp only [Option.some.injEq] at s2
      subst s2
      split_ifs at s8 ⊢ <;> omega

theorem run_refines {str_hash : Key → Nat} (calls : List (Key × Nat)) :
    ∀ (d : dict) (m : Key → Option Nat), Inv str_hash d →
      (∀ k, dict_get str_hash d k = some (abs_get m k)) →
      d.used + calls.length ≤ UINT_MAX →
      ∃ d1 log, run str_hash d calls = some (d1, log) ∧
        ∀ k, dict_get str_hash d1 k
          = some (abs_get (calls.foldl (fun m c => abs_set m c.1 c.2) m) k) := by
  induction calls with
  | nil =>
    intro d m _ hm _
    exact ⟨d, [], rfl, hm⟩
  | cons c t ih =>
    intro d m hinv hm hlen
    obtain ⟨k, v⟩ := c
    simp only [List.length_cons] at hlen
    have hb : below_ceiling d := Or.inr (by omega)
    obtain ⟨d1, log, g, s1, -, s3, -, s5, s6, s7, -⟩ := dict_set_spec hinv hb k v
    have hused : d1.used ≤ d.used + 1 := by rw [s7]; split_ifs <;> omega
    have hm1 : ∀ k1, dict_get str_hash d1 k1 = some (abs_get (abs_set m k v) k1) := by
      intro k1
      by_cases hk : k1 = k
      · subst hk
        rw [s5]
        by_cases hv : v = 0 <;> simp [abs_get, abs_set, hv]
      · rw [s6 k1 hk, hm k1]
        simp [abs_get, abs_set, hk]
    obtain ⟨d2, log2, r1, r2⟩ := ih d1 (abs_set m k v) s3 hm1 (by omega)
    exact ⟨d2, log ++ log2, by simp only [run, s1, r1], r2⟩

theorem run_inserts {str_hash : Key → Nat} (calls : List (Key × Nat)) :
    ∀ d : dict, Inv str_hash d → (calls.map Prod.fst).Nodup → (∀ c ∈ calls, c.2 ≠ 0) →
      (∀ c ∈ calls, dict_get str_hash d c.1 = some 0) →
      d.used + calls.length ≤ UINT_MAX →
      ∃ d1 log, run str_hash d calls = some (d1, log) ∧
        d1.used = d.used + calls.length ∧
        (∀ c ∈ calls, dict_get str_hash d1 c.1 = some c.2) ∧
        ∀ k, k ∉ calls.map Prod.fst → dict_get str_hash d1 k = dict_get str_hash d k := by
  induction calls with
  | nil =>
    intro d _ _ _ _ _
    exact ⟨d, [], rfl, rfl, by simp, fun _ _ => rfl⟩
  | cons c t ih =>
    intro d hinv hnd hv habs hlen
    obtain ⟨k, v⟩ := c
    simp only [List.length_cons] at hlen
    simp only [List.map_cons, List.nodup_cons] at hnd
    have hb : below_ceiling d := Or.inr (by omega)
    obtain ⟨d1, log, g, s1, s2, s3, -, s5, s6, s7, -⟩ := dict_set_spec hinv hb k v
    have hg : g = 0 := by
      rw [habs (k, v) (by simp)] at s2
      simpa using s2.symm
    have hv0 : v ≠ 0 := hv (k, v) (by simp)
    have hused : d1.used = d.used + 1 := by rw [s7]; simp [hg, hv0]
    have habs1 : ∀ c ∈ t, dict_get str_hash d1 c.1 = some 0 := by
      intro c hc
      have hne : c.1 ≠ k := fun h => hnd.1 (h ▸ List.mem_map_of_mem Prod.fst hc)
      rw [s6 c.1 hne]
      exact habs c (List.mem_cons_of_mem _ hc)
    obtain ⟨d2, log2, r1, r2, r3, r4⟩ := ih d1 s3 hnd.2
      (fun c hc => hv c (List.mem_cons_of_mem _ hc)) habs1 (by omega)
    refine ⟨d2, log ++ log2, by simp only [run, s1, r1], by rw [r2, hused]; simp; omega,
      ?_, ?_⟩
    · intro c hc
      rcases List.mem_cons.1 hc with rfl | hc
      · rw [r4 k hnd.1, s5]
      · exact r3 c hc
    · intro k1 hk1
      simp only [List.map_cons, List.mem_cons, not_or] at hk1
      rw [r4 k1 hk1.2, s6 k1 hk1.1]

theorem fill_length (n : Nat) : (fill n).length = n := by
  simp [fill]

theorem fill_keys_nodup (n : Nat) : ((fill n).map Prod.fst).Nodup := by
  have h : (fill n).map Prod.fst = (List.range n).map (fun m => [m]) := by
    simp only [fill, List.map_map]
    rfl
  rw [h]
  exact (List.nodup_range n).map (fun a b h => by simpa using h)

theorem fill_values_ne (n : Nat) : ∀ c ∈ fill n, c.2 ≠ 0 := by
  intro c hc
  obtain ⟨m, -, rfl⟩ := List.mem_map.1 hc
  simp

theorem run_fill_none (str_hash : Key → Nat) (fdie n : Nat) (hn : n = UINT_MAX + 1) :
    run str_hash (ex_empty fdie) (fill n) = none := by
  obtain ⟨d, log, h1, hr, -, hu, -⟩ :=
    fill_spec str_hash fdie (ex_empty fdie) (dict_create_eq fdie) UINT_MAX (le_refl _)
  have hinv := inv_of_reachable hr
  have hnone := dict_set_none_at_ceiling hinv (ceiling_of_used hinv hu) [UINT_MAX] (UINT_MAX + 1)
  have hlast : run str_hash d [([UINT_MAX], UINT_MAX + 1)] = none := by
    simp only [run, hnone]
  rw [hn, fill, List.range_succ, List.map_append]
  exact run_append_none _ _ h1 hlast

theorem passed_fill (n : Nat) : passed (fill n) = (List.range n).map (fun m => m + 1) := by
  simp only [passed, fill, List.map_map]
  rw [List.filter_eq_self.2]
  · rfl
  · intro a ha
    obtain ⟨m, -, rfl⟩ := List.mem_map.1 ha
    simp

theorem passed_fill_nodup (n : Nat) : (passed (fill n)).Nodup := by
  rw [passed_fill]
  exact (List.nodup_range n).map (fun a b h => by simpa using h)

theorem lifetime_fill_none (str_hash : Key → Nat) (fdie n : Nat) (hn : n = UINT_MAX + 1) :
    lifetime str_hash fdie (fill n) = none := by
  have hrun : run str_hash { fdie := fdie, idx := 0, used := 0, table := List.replicate 53 [] }
      (fill n) = none := run_fill_none str_hash fdie n hn
  simp only [lifetime, dict_create_eq]
  rw [hrun]

/-! ## Primality of the capacities -/

theorem noDivisors_sound (n : Nat) : ∀ (k lo : Nat), noDivisors n lo k = true →
    ∀ m, lo ≤ m → m < lo + 2 ^ k → ¬ m ∣ n := by
  intro k
  induction k with
  | zero =>
    intro lo h m h1 h2 hd
    have hm : m = lo := by simp at h2; omega
    subst hm
    simp [noDivisors] at h
    exact h (Nat.mod_eq_zero_of_dvd hd)
  | succ k ih =>
    intro lo h m h1 h2
    simp only [noDivisors, Bool.and_eq_true] at h
    by_cases hm : m < lo + 2 ^ k
    · exact ih lo h.1 m h1 hm
    · refine ih (lo + 2 ^ k) h.2 m (by omega) ?_
      rw [pow_succ] at h2; omega

theorem prime_of_noDivisors (n k : Nat) (h2 : 2 ≤ n) (hlt : n < (2 + 2 ^ k) ^ 2)
    (h : noDivisors n 2 k = true) : Nat.Prime n := by
  rw [Nat.prime_def_le_sqrt]
  refine ⟨h2, fun m hm hs => noDivisors_sound n k 2 h m hm ?_⟩
  have hsq : Nat.sqrt n < 2 + 2 ^ k := Nat.sqrt_lt'.2 hlt
  omega

theorem prime_53 : Nat.Prime 53 :=
  prime_of_noDivisors 53 3 (by decide) (by decide) (by decide!)

theorem prime_97 : Nat.Prime 97 :=
  prime_of_noDivisors 97 3 (by decide) (by decide) (by decide!)

theorem prime_193 : Nat.Prime 193 :=
  prime_of_noDivisors 193 4 (by decide) (by decide) (by decide!)

theorem prime_389 : Nat.Prime 389 :=
  prime_of_noDivisors 389 5 (by decide) (by decide) (by decide!)

theorem prime_769 : Nat.Prime 769 :=
  prime_of_noDivisors 769 5 (by decide) (by decide) (by decide!)

theorem prime_1543 : Nat.Prime 1543 :=
  prime_of_noDivisors 1543 6 (by decide) (by decide) (by decide!)

theorem prime_3079 : Nat.Prime 3079 :=
  prime_of_noDivisors 3079 6 (by decide) (by decide) (by decide!)

theorem prime_6151 : Nat.Prime 6151 :=
  prime_of_noDivisors 6151 7 (by decide) (by decide) (by decide!)

theorem prime_12289 : Nat.Prime 12289 :=
  prime_of_noDivisors 12289 7 (by decide) (by decide) (by decide!)

theorem prime_24593 : Nat.Prime 24593 :=
  prime_of_noDivisors 24593 8 (by decide) (by decide) (by decide!)

theorem prime_49157 : Nat.Prime 49157 :=
  prime_of_noDivisors 49157 8 (by decide) (by decide) (by decide!)

theorem prime_98317 : Nat.Prime 98317 :=
  prime_of_noDivisors 98317 9 (by decide) (by decide) (by decide!)

theorem prime_196613 : Nat.Prime 196613 :=
  prime_of_noDivisors 196613 9 (by decide) (by decide) (by decide!)

theorem prime_393241 : Nat.Prime 393241 :=
  prime_of_noDivisors 393241 10 (by decide) (by decide) (by decide!)

theorem prime_786433 : Nat.Prime 786433 :=
  prime_of_noDivisors 786433 10 (by decide) (by decide) (by decide!)

theorem prime_1572869 : Nat.Prime 1572869 :=
  prime_of_noDivisors 1572869 11 (by decide) (by decide) (by decide!)

theorem prime_3145739 : Nat.Prime 3145739 :=
  prime_of_noDivisors 3145739 11 (by decide) (by decide) (by decide!)

theorem prime_6291469 : Nat.Prime 6291469 :=
  prime_of_noDivisors 6291469 12 (by decide) (by decide) (by decide!)

theorem prime_12582917 : Nat.Prime 12582917 :=
  prime_of_noDivisors 12582917 12 (by decide) (by decide) (by decide!)

theorem prime_25165843 : Nat.Prime 25165843 :=
  prime_of_noDivisors 25165843 13 (by decide) (by decide) (by decide!)

theorem prime_50331653 : Nat.Prime 50331653 :=
  prime_of_noDivisors 50331653 13 (by decide) (by decide) (by decide!)

theorem prime_100663319 : Nat.Prime 100663319 :=
  prime_of_noDivisors 100663319 14 (by decide) (by decide) (by decide!)

theorem prime_201326611 : Nat.Prime 201326611 :=
  prime_of_noDivisors 201326611 14 (by decide) (by decide) (by decide!)

theorem prime_402653189 : Nat.Prime 402653189 :=
  prime_of_noDivisors 402653189 15 (by decide) (by decide) (by decide!)

theorem prime_805306457 : Nat.Prime 805306457 :=
  prime_of_noDivisors 805306457 15 (by decide) (by decide) (by decide!)

theorem prime_1610612741 : Nat.Prime 1610612741 :=
  prime_of_noDivisors 1610612741 16 (by decide) (by decide) (by decide!)

/-! ## Worked examples -/

theorem reachable_ex_empty (str_hash : Key → Nat) (fdie : Nat) :
    Reachable str_hash (ex_empty fdie) :=
  Reachable.create fdie _ (dict_create_eq fdie)

theorem reachable_ex_one (fdie : Nat) : Reachable sum_hash (ex_one fdie) :=
  Reachable.set (ex_empty fdie) [97] 5 (ex_one fdie) [] (reachable_ex_empty sum_hash fdie) rfl

set_option maxRecDepth 100000 in
theorem reachable_ex_loaded : Reachable sum_hash ex_loaded :=
  @reachable_run sum_hash churn (ex_empty 0) ex_loaded [] (reachable_ex_empty sum_hash 0)
    (by decide!)

/-! ## Main results -/

/-- C1: for every hash function, every dictionary reachable from `dict_create` by
`dict_set` calls and below the capacity ceiling, every key `k` and every
non-null value `v`, the call `dict_set(d, k, v)` returns and `dict_get(d, k)`
then returns `v`. -/
theorem dict_get_after_dict_set (str_hash : Key → Nat) (d : dict) (k : Key) (v : Nat)
    (hr : Reachable str_hash d) (hb : below_ceiling d) (hv : v ≠ 0) :
    ∃ d1 log, dict_set str_hash d k v = some (d1, log) ∧ dict_get str_hash d1 k = some v := by
  have _ := hv
  obtain ⟨d1, log, g, s1, -, -, -, s5, -⟩ := dict_set_spec (inv_of_reachable hr) hb k v
  exact ⟨d1, log, s1, s5⟩

theorem dict_get_after_dict_set_witness :
    Reachable sum_hash (ex_one 0) ∧ below_ceiling (ex_one 0) ∧ (7 : Nat) ≠ 0 ∧
      ∃ d1 log, dict_set sum_hash (ex_one 0) [98] 7 = some (d1, log) ∧
        dict_get sum_hash d1 [98] = some 7 :=
  ⟨reachable_ex_one 0, by decide, by decide,
    dict_get_after_dict_set sum_hash (ex_one 0) [98] 7 (reachable_ex_one 0) (by decide)
      (by decide)⟩

/-- C2: for every reachable dictionary below the capacity ceiling and every key
`k`, present or not, the call `dict_set(d, k, NULL)` returns and `dict_get(d, k)`
then returns `NULL`. -/
theorem dict_get_after_dict_set_null (str_hash : Key → Nat) (d : dict) (k : Key)
    (hr : Reachable str_hash d) (hb : below_ceiling d) :
    ∃ d1 log, dict_set str_hash d k 0 = some (d1, log) ∧ dict_get str_hash d1 k = some 0 := by
  obtain ⟨d1, log, g, s1, -, -, -, s5, -⟩ := dict_set_spec (inv_of_reachable hr) hb k 0
  exact ⟨d1, log, s1, s5⟩

theorem dict_get_after_dict_set_null_witness :
    Reachable sum_hash (ex_one 0) ∧ below_ceiling (ex_one 0) ∧
      dict_get sum_hash (ex_one 0) [97] = some 5 ∧
      ∃ d1 log, dict_set sum_hash (ex_one 0) [97] 0 = some (d1, log) ∧
        dict_get sum_hash d1 [97] = some 0 :=
  ⟨reachable_ex_one 0, by decide, by decide,
    dict_get_after_dict_set_null sum_hash (ex_one 0) [97] (reachable_ex_one 0) (by decide)⟩

/-- C3: `dict_set` on one key does not disturb any other key: for every reachable
dictionary below the capacity ceiling, every key `k`, every value `v` (null or
not) and every key `k1` different from `k`, the call `dict_set(d, k, v)` returns
and `dict_get(d, k1)` gives the same result after it as before it. -/
theorem dict_set_frame (str_hash : Key → Nat) (d : dict) (k : Key) (v : Nat) (k1 : Key)
    (hr : Reachable str_hash d) (hb : below_ceiling d) (hne : k1 ≠ k) :
    ∃ d1 log g, dict_set str_hash d k v = some (d1, log) ∧
      dict_get str_hash d k1 = some g ∧ dict_get str_hash d1 k1 = some g := by
  have hinv := inv_of_reachable hr
  obtain ⟨d1, log, g, s1, -, -, -, -, s6, -⟩ := dict_set_spec hinv hb k v
  obtain ⟨g1, hg1⟩ := dict_get_total hinv k1
  exact ⟨d1, log, g1, s1, hg1, by rw [s6 k1 hne, hg1]⟩

/-- The scenario `create(null); set a; set b; get c == absent`: the second `set`
leaves the key "c", which was never set, absent. -/
theorem dict_set_frame_witness :
    dict_create 0 = some (ex_empty 0) ∧
      dict_set sum_hash (ex_empty 0) [97] 5 = some (ex_one 0, []) ∧
      Reachable sum_hash (ex_one 0) ∧ below_ceiling (ex_one 0) ∧ ([99] : Key) ≠ [98] ∧
      ∃ d1 log g, dict_set sum_hash (ex_one 0) [98] 6 = some (d1, log) ∧
        dict_get sum_hash (ex_one 0) [99] = some g ∧ dict_get sum_hash d1 [99] = some g :=
  ⟨rfl, rfl, reachable_ex_one 0, by decide, by decide,
    dict_set_frame sum_hash (ex_one 0) [98] 6 [99] (reachable_ex_one 0) (by decide)
      (by decide)⟩

/-- C4: resize preserves all reachable mappings: for every reachable dictionary
whose capacity-class index is below the last class, `_dict_resize(d)` returns,
and `dict_get` returns the same value for every key afterwards as before; this
covers the check that does nothing (live-count below the threshold, dictionary
unchanged) and the one that advances to the next class. -/
theorem dict_resize_preserves_get (str_hash : Key → Nat) (d : dict)
    (hr : Reachable str_hash d) (hidx : d.idx < 25) :
    ∃ d1 threshold size, _dict_resize d = some d1 ∧ _primes[d.idx]? = some (threshold, size) ∧
      (d.used < threshold → d1 = d) ∧ (threshold ≤ d.used → d1.idx = d.idx + 1) ∧
      ∀ k, ∃ g, dict_get str_hash d k = some g ∧ dict_get str_hash d1 k = some g := by
  have hinv := inv_of_reachable hr
  obtain ⟨d1, r1, -, -, -, -, -, r7, r8⟩ := dict_resize_spec hinv (Or.inl hidx)
  obtain ⟨threshold, size, hp, -⟩ := id hinv
  refine ⟨d1, threshold, size, r1, hp, (r8 _ _ hp).1, (r8 _ _ hp).2, ?_⟩
  intro k
  obtain ⟨g, hg⟩ := dict_get_total hinv k
  exact ⟨g, hg, by rw [r7, hg]⟩

/-- At `ex_loaded` the live-count has reached the threshold 63 of class 0, so this
resize check advances to class 1. -/
theorem dict_resize_preserves_get_witness :
    Reachable sum_hash ex_loaded ∧ ex_loaded.idx < 25 ∧
      ∃ d1 threshold size, _dict_resize ex_loaded = some d1 ∧
        _primes[ex_loaded.idx]? = some (threshold, size) ∧
        (ex_loaded.used < threshold → d1 = ex_loaded) ∧
        (threshold ≤ ex_loaded.used → d1.idx = ex_loaded.idx + 1) ∧
        ∀ k, ∃ g, dict_get sum_hash ex_loaded k = some g ∧ dict_get sum_hash d1 k = some g :=
  ⟨reachable_ex_loaded, by decide,
    dict_resize_preserves_get sum_hash ex_loaded reachable_ex_loaded (by decide)⟩

/-- C5: the code breaks the overwrite contract at the capacity ceiling. After the
4294967295 calls of `fill` on a dictionary created with a destructor, the
reachable dictionary has the key `[0]` mapped to `1`; overwriting it with `2`
should call the destructor once on `1`, but the resize check, whose `UINT_MAX`
guard in the last row misses the live-count `UINT_MAX`, reads `_primes` past its
last row and the call has no defined result. -/
theorem dict_set_overwrite_ceiling :
    ∃ d log, run sum_hash (ex_empty 1) (fill 4294967295) = some (d, log) ∧
      Reachable sum_hash d ∧ d.fdie ≠ 0 ∧ dict_get sum_hash d [0] = some 1 ∧
      dict_set sum_hash d [0] 2 = none := by
  obtain ⟨d, log, h1, hr, hf, hu, hget⟩ :=
    fill_spec sum_hash 1 (ex_empty 1) (dict_create_eq 1) 4294967295 (by decide)
  have hinv := inv_of_reachable hr
  refine ⟨d, log, h1, hr, by rw [hf]; decide, by rw [hget 0]; rfl, ?_⟩
  exact dict_set_none_at_ceiling hinv (ceiling_of_used hinv hu) [0] 2

/-- Below the capacity ceiling the overwrite contract of C5 holds: for every
reachable dictionary below the capacity ceiling that was created with a
destructor, every key `k` currently mapped to `v1` and every
non-null `v2` different from `v1`, the call `dict_set(d, k, v2)` returns, its
destructor calls are exactly the one call on `v1`, and `dict_get(d, k)` then
returns `v2`. -/
theorem dict_set_overwrite (str_hash : Key → Nat) (d : dict) (k : Key) (v1 v2 : Nat)
    (hr : Reachable str_hash d) (hb : below_ceiling d) (hf : d.fdie ≠ 0)
    (hg : dict_get str_hash d k = some v1) (h1 : v1 ≠ 0) (h2 : v2 ≠ 0) (h12 : v2 ≠ v1) :
    ∃ d1, dict_set str_hash d k v2 = some (d1, [v1]) ∧ dict_get str_hash d1 k = some v2 := by
  have _ := h2
  obtain ⟨d1, log, g, s1, s2, -, -, s5, -, -, s8, -⟩ :=
    dict_set_spec (inv_of_reachable hr) hb k v2
  rw [hg] at s2
  simp only [Option.some.injEq] at s2
  subst s2
  rw [if_pos ⟨hf, h1, fun h => h12 h.symm⟩] at s8
  subst s8
  exact ⟨d1, s1, s5⟩

theorem dict_set_overwrite_witness :
    Reachable sum_hash (ex_one 9) ∧ below_ceiling (ex_one 9) ∧ (ex_one 9).fdie ≠ 0 ∧
      dict_get sum_hash (ex_one 9) [97] = some 5 ∧ (5 : Nat) ≠ 0 ∧ (6 : Nat) ≠ 0 ∧
      (6 : Nat) ≠ 5 ∧
      ∃ d1, dict_set sum_hash (ex_one 9) [97] 6 = some (d1, [5]) ∧
        dict_get sum_hash d1 [97] = some 6 :=
  ⟨reachable_ex_one 9, by decide, by decide, by decide, by decide, by decide, by decide,
    dict_set_overwrite sum_hash (ex_one 9) [97] 5 6 (reachable_ex_one 9) (by decide)
      (by decide) (by decide) (by decide) (by decide) (by decide)⟩

/-- C6: the code breaks idempotence at the capacity ceiling. On the reachable
dictionary left by the 4294967294 calls of `fill`, the first `dict_set` of a new
key with a non-null value returns and brings the live-count to `UINT_MAX`; the
same call made a second time should be a no-op, but the resize check, whose
`UINT_MAX` guard in the last row misses the live-count `UINT_MAX`, reads
`_primes` past its last row and the call has no defined result. -/
theorem dict_set_twice_ceiling :
    ∃ d log d1 log1, run sum_hash (ex_empty 0) (fill 4294967294) = some (d, log) ∧
      Reachable sum_hash d ∧
      dict_set sum_hash d [4294967294] 4294967295 = some (d1, log1) ∧
      dict_set sum_hash d1 [4294967294] 4294967295 = none := by
  obtain ⟨d, log, h1, hr, hf, hu, hget⟩ :=
    fill_spec sum_hash 0 (ex_empty 0) (dict_create_eq 0) 4294967294 (by decide)
  have hinv := inv_of_reachable hr
  have hb : below_ceiling d := Or.inr (by rw [hu]; decide)
  obtain ⟨d1, log1, g, s1, s2, s3, -, -, -, s7, -⟩ :=
    dict_set_spec hinv hb [4294967294] 4294967295
  rw [hget 4294967294] at s2
  simp only [lt_self_iff_false, if_false, Option.some.injEq] at s2
  subst s2
  have hu1 : d1.used = UINT_MAX := by
    rw [s7, hu]; rfl
  exact ⟨d, log, d1, log1, h1, hr, s1,
    dict_set_none_at_ceiling s3 (ceiling_of_used s3 hu1) _ _⟩

/-- Below the capacity ceiling the idempotence of C6 holds: for every reachable
dictionary below the capacity ceiling, every key `k` and every non-null `v`, the call `dict_set(d, k, v)` returns, and when
the dictionary is still below the ceiling the same call made a second time
returns with no destructor call, leaves `dict_get(d, k)` equal to `v` and the
`dict_get` result of every key as it was, whether or not the second resize check
advanced the capacity class. -/
theorem dict_set_twice (str_hash : Key → Nat) (d : dict) (k : Key) (v : Nat)
    (hr : Reachable str_hash d) (hb : below_ceiling d) (hv : v ≠ 0) :
    ∃ d1 log1, dict_set str_hash d k v = some (d1, log1) ∧
      (below_ceiling d1 →
        ∃ d2, dict_set str_hash d1 k v = some (d2, []) ∧ dict_get str_hash d2 k = some v ∧
          ∀ k1, ∃ g, dict_get str_hash d1 k1 = some g ∧ dict_get str_hash d2 k1 = some g) := by
  have _ := hv
  obtain ⟨d1, log1, g, s1, -, s3, -, s5, -⟩ := dict_set_spec (inv_of_reachable hr) hb k v
  refine ⟨d1, log1, s1, fun hb1 => ?_⟩
  obtain ⟨d2, log2, g2, t1, t2, t3, -, t5, t6, -, t8, -⟩ := dict_set_spec s3 hb1 k v
  rw [s5] at t2
  simp only [Option.some.injEq] at t2
  subst t2
  simp only [ne_eq, not_true_eq_false, and_false, if_false] at t8
  subst t8
  refine ⟨d2, t1, t5, fun k1 => ?_⟩
  obtain ⟨g1, hg1⟩ := dict_get_total s3 k1
  refine ⟨g1, hg1, ?_⟩
  by_cases hk : k1 = k
  · subst hk
    rw [t5, ← hg1, s5]
  · rw [t6 k1 hk, hg1]

/-- The second call is made on `ex_loaded`, where the resize check advances the
capacity class. -/
theorem dict_set_twice_witness :
    Reachable sum_hash ex_loaded ∧ below_ceiling ex_loaded ∧ (5 : Nat) ≠ 0 ∧
      ∃ d1 log1, dict_set sum_hash ex_loaded [97] 5 = some (d1, log1) ∧
        (below_ceiling d1 →
          ∃ d2, dict_set sum_hash d1 [97] 5 = some (d2, []) ∧
            dict_get sum_hash d2 [97] = some 5 ∧
            ∀ k1, ∃ g, dict_get sum_hash d1 k1 = some g ∧ dict_get sum_hash d2 k1 = some g) :=
  ⟨reachable_ex_loaded, by decide, by decide,
    dict_set_twice sum_hash ex_loaded [97] 5 reachable_ex_loaded (by decide) (by decide)⟩

/-- C7: for every reachable dictionary created with a destructor, `dict_delete(d)`
returns and its destructor calls are a permutation of the values of all entries
in all buckets, one call per entry; for a dictionary created without a
destructor no call is made; and `dict_delete(NULL)` does nothing. -/
theorem dict_delete_destructs (str_hash : Key → Nat) (d : dict) (hr : Reachable str_hash d) :
    (d.fdie ≠ 0 → ∃ log, dict_delete (some d) = some log ∧
        log.Perm (d.table.flatten.map keypair.val)) ∧
      (d.fdie = 0 → dict_delete (some d) = some []) ∧
      dict_delete none = some [] := by
  have hspec := dict_delete_spec (inv_of_reachable hr)
  refine ⟨fun hf => ⟨live d, ?_, List.Perm.refl _⟩, fun hf => ?_, rfl⟩
  · rw [hspec, if_pos hf]
  · rw [hspec, if_neg (by simp [hf])]

theorem dict_delete_destructs_witness :
    Reachable sum_hash (ex_one 9) ∧
      ((ex_one 9).fdie ≠ 0 → ∃ log, dict_delete (some (ex_one 9)) = some log ∧
        log.Perm ((ex_one 9).table.flatten.map keypair.val)) ∧
      ((ex_one 9).fdie = 0 → dict_delete (some (ex_one 9)) = some []) ∧
      dict_delete none = some [] :=
  ⟨reachable_ex_one 9, dict_delete_destructs sum_hash (ex_one 9) (reachable_ex_one 9)⟩

/-- C8: the code breaks the once-per-value contract on a long enough sequence of
calls. The 4294967296 calls of `fill` pass pairwise distinct non-null values to
a dictionary created with a destructor; the last of them is made at the
capacity ceiling, where the resize check, whose `UINT_MAX` guard in the last
row misses the live-count `UINT_MAX`, reads `_primes` past its last row: the
lifetime has no defined log. -/
theorem lifetime_ceiling :
    (1 : Nat) ≠ 0 ∧ (passed (fill 4294967296)).Nodup ∧
      lifetime sum_hash 1 (fill 4294967296) = none :=
  ⟨by decide, passed_fill_nodup _, lifetime_fill_none sum_hash 1 4294967296 (by decide)⟩

/-- Short of the capacity ceiling the once-per-value contract of C8 holds: for
every sequence of at most `UINT_MAX` (2^32 - 1) `dict_set` calls applied to a dictionary created with a destructor, in which the non-null
value pointers passed are pairwise distinct, followed by `dict_delete`, the
lifetime returns and the log of destructor calls is a permutation of those
non-null values: each of them exactly once and nothing else. -/
theorem lifetime_destructs_once (str_hash : Key → Nat) (fdie : Nat) (calls : List (Key × Nat))
    (hf : fdie ≠ 0) (hlen : calls.length ≤ UINT_MAX) (hnd : (passed calls).Nodup) :
    ∃ log, lifetime str_hash fdie calls = some log ∧ log.Perm (passed calls) ∧ log.Nodup := by
  obtain ⟨log, h1, h2⟩ : ∃ log, lifetime str_hash fdie calls = some log ∧
      log.Perm (passed calls) := lifetime_spec hf hlen hnd
  exact ⟨log, h1, h2, (h2.nodup_iff).2 hnd⟩

/-- An insertion, an overwrite, a deletion, a deletion of an absent key and an
insertion left to `dict_delete`. -/
theorem lifetime_destructs_once_witness :
    (9 : Nat) ≠ 0 ∧
      [([97], 5), ([97], 6), ([97], 0), ([98], 0), ([98], 7)].length ≤ UINT_MAX ∧
      (passed [([97], 5), ([97], 6), ([97], 0), ([98], 0), ([98], 7)]).Nodup ∧
      ∃ log, lifetime sum_hash 9 [([97], 5), ([97], 6), ([97], 0), ([98], 0), ([98], 7)]
          = some log ∧
        log.Perm (passed [([97], 5), ([97], 6), ([97], 0), ([98], 0), ([98], 7)]) ∧
        log.Nodup :=
  ⟨by decide, by decide, by decide,
    lifetime_destructs_once sum_hash 9 [([97], 5), ([97], 6), ([97], 0), ([98], 0), ([98], 7)]
      (by decide) (by decide) (by decide)⟩

/-- C9: `dict_create(fdie)` returns a dictionary with capacity-class index 0,
live-count 0, the given destructor, and a bucket array of exactly 53 empty
bucket heads, 53 being the capacity of the first class; `dict_get` on it returns
`NULL` for every key. -/
theorem dict_create_fresh (str_hash : Key → Nat) (fdie : Nat) :
    ∃ d, dict_create fdie = some d ∧ d.idx = 0 ∧ d.used = 0 ∧ d.fdie = fdie ∧
      d.table = List.replicate 53 [] ∧ d.table.length = 53 ∧
      _primes[0]?.map Prod.snd = some 53 ∧
      ∀ k, dict_get str_hash d k = some 0 := by
  refine ⟨ex_empty fdie, dict_create_eq fdie, rfl, rfl, rfl, rfl, by simp [ex_empty], rfl, ?_⟩
  intro k
  apply dict_get_of_not_mem (inv_create (dict_create_eq fdie))
  simp [ex_empty]

/-- C10: the table `_primes` has 26 rows, its load thresholds (column 0) are
strictly increasing, its capacities (column 1) are strictly increasing, and each
of the 26 capacities is a prime number. -/
theorem primes_table :
    _primes.length = 26 ∧
      (_primes.map Prod.fst).Sorted (fun a b => a < b) ∧
      (_primes.map Prod.snd).Sorted (fun a b => a < b) ∧
      _primes.map Prod.snd =
        [53, 97, 193, 389, 769, 1543, 3079, 6151, 12289, 24593, 49157, 98317, 196613, 393241,
         786433, 1572869, 3145739, 6291469, 12582917, 25165843, 50331653, 100663319,
         201326611, 402653189, 805306457, 1610612741] ∧
      List.Forall Nat.Prime (_primes.map Prod.snd) := by
  rw [primes_eq]
  refine ⟨rfl, by decide!, by decide!, rfl, ?_⟩
  simp only [List.map_cons, List.map_nil, List.forall_cons, List.Forall, and_true]
  exact ⟨prime_53, prime_97, prime_193, prime_389, prime_769, prime_1543, prime_3079, prime_6151, prime_12289, prime_24593, prime_49157, prime_98317, prime_196613, prime_393241, prime_786433, prime_1572869, prime_3145739, prime_6291469, prime_12582917, prime_25165843, prime_50331653, prime_100663319, prime_201326611, prime_402653189, prime_805306457, prime_1610612741⟩

/-- C11: at the last row of `_primes` (index 25) the resize check does nothing
exactly when the live-count is below `UINT_MAX`; for the 32-bit value `UINT_MAX`
itself, which a reachable dictionary attains, the comparison `used <
_primes[25][0]` fails and the check indexes `_primes[26]`, past the last row. -/
theorem resize_check_at_ceiling :
    (∀ fdie used table,
        _dict_resize { fdie := fdie, idx := 25, used := used, table := table }
          = if used < 4294967295
            then some { fdie := fdie, idx := 25, used := used, table := table }
            else none) ∧
      ∃ d, Reachable sum_hash d ∧ d.idx = 25 ∧ d.used = 4294967295 ∧
        _dict_resize d = none := by
  constructor
  · intro fdie used table
    have h25 : _primes[25]? = some (4294967295, 1610612741) := by rw [primes_eq]; rfl
    have h26 : _primes[25 + 1]? = none := by rw [primes_eq]; rfl
    simp only [_dict_resize, h25, h26]
  · obtain ⟨d, log, -, hr, -, hu, -⟩ :=
      fill_spec sum_hash 0 (ex_empty 0) (dict_create_eq 0) 4294967295 (by decide)
    have hinv := inv_of_reachable hr
    have hb := ceiling_of_used hinv hu
    obtain ⟨threshold, size, hp, -⟩ := id hinv
    have hlt := primes_lt hp
    simp only [below_ceiling, not_or, not_lt] at hb
    exact ⟨d, hr, by omega, hu,
      dict_resize_none_at_ceiling hinv (by simp only [below_ceiling, not_or, not_lt]; exact hb)⟩

/-- C12: the code breaks the insertion contract on a long enough list. The
4294967296 calls of `fill` insert pairwise distinct keys with non-null values
into a freshly created dictionary; the last call is made at the capacity
ceiling, where the resize check, whose `UINT_MAX` guard in the last row misses
the live-count `UINT_MAX`, reads `_primes` past its last row, so the sequence
has no defined result. -/
theorem insert_many_ceiling :
    ((fill 4294967296).map Prod.fst).Nodup ∧ (∀ c ∈ fill 4294967296, c.2 ≠ 0) ∧
      64 ≤ (fill 4294967296).length ∧ dict_create 0 = some (ex_empty 0) ∧
      run sum_hash (ex_empty 0) (fill 4294967296) = none :=
  ⟨fill_keys_nodup _, fill_values_ne _, by rw [fill_length]; decide, rfl,
    run_fill_none sum_hash 0 4294967296 (by decide)⟩

/-- Short of the capacity ceiling the insertion contract of C12 holds: for every
list of `N` pairwise distinct keys with non-null values, `64 ≤ N ≤ UINT_MAX`, inserted one by one with `dict_set` into a freshly
created dictionary, all calls return, `dict_get` then returns the inserted
value for each of the `N` keys, and the capacity-class index is at least 1;
it is exactly 1 for `N = 100`. -/
theorem insert_many (str_hash : Key → Nat) (fdie : Nat) (calls : List (Key × Nat))
    (hkeys : (calls.map Prod.fst).Nodup) (hvals : ∀ c ∈ calls, c.2 ≠ 0)
    (h64 : 64 ≤ calls.length) (hmax : calls.length ≤ UINT_MAX) :
    ∃ d0 d log, dict_create fdie = some d0 ∧ run str_hash d0 calls = some (d, log) ∧
      (∀ c ∈ calls, dict_get str_hash d c.1 = some c.2) ∧ 1 ≤ d.idx ∧
      (calls.length = 100 → d.idx = 1) := by
  have h0 := dict_create_eq fdie
  have hinv0 : Inv str_hash _ := inv_create h0
  obtain ⟨d, log, r1, r2, r3, -⟩ := run_inserts calls _ hinv0 hkeys hvals
    (fun c _ => dict_get_of_not_mem hinv0 (by simp)) (by simpa using hmax)
  have hr : Reachable str_hash d := reachable_run calls (Reachable.create fdie _ h0) r1
  obtain ⟨threshold, size, hp, -, hu, -⟩ := inv_of_reachable hr
  simp only [zero_add] at r2
  have h1 : 1 ≤ d.idx := by
    by_contra hc
    have hz : d.idx = 0 := by omega
    rw [hz, primes_eq] at hp
    simp at hp
    omega
  refine ⟨_, d, log, h0, r1, r3, h1, fun h100 => ?_⟩
  by_contra hc
  have h127 := thresholds_passed hr 1 127 97 (by omega) (by rw [primes_eq]; rfl)
  omega

theorem insert_many_witness :
    ((fill 100).map Prod.fst).Nodup ∧ (∀ c ∈ fill 100, c.2 ≠ 0) ∧
      64 ≤ (fill 100).length ∧ (fill 100).length ≤ UINT_MAX ∧
      ∃ d0 d log, dict_create 0 = some d0 ∧ run sum_hash d0 (fill 100) = some (d, log) ∧
        (∀ c ∈ fill 100, dict_get sum_hash d c.1 = some c.2) ∧ 1 ≤ d.idx ∧
        ((fill 100).length = 100 → d.idx = 1) :=
  ⟨fill_keys_nodup 100, fill_values_ne 100, by rw [fill_length]; decide,
    by rw [fill_length]; decide,
    insert_many sum_hash 0 (fill 100) (fill_keys_nodup 100) (fill_values_ne 100)
      (by rw [fill_length]; decide) (by rw [fill_length]; decide)⟩

/-- C14: for every reachable dictionary and every key `k`, `dict_get(d, k)`,
which compares keys only, returns, and its result is the result of the lookup
that takes the first entry of bucket `hash(k) mod capacity` whose stored hash
equals `hash(k)` and whose key equals `k`, `NULL` when there is none. -/
theorem dict_get_refines_exact (str_hash : Key → Nat) (d : dict) (k : Key)
    (hr : Reachable str_hash d) :
    ∃ g, dict_get str_hash d k = some g ∧ dict_get_exact str_hash d k = some g := by
  have hinv := inv_of_reachable hr
  obtain ⟨g, hg⟩ := dict_get_total hinv k
  exact ⟨g, hg, by rw [dict_get_exact_eq hinv, hg]⟩

theorem dict_get_refines_exact_witness :
    Reachable sum_hash (ex_one 0) ∧
      ∃ g, dict_get sum_hash (ex_one 0) [97] = some g ∧
        dict_get_exact sum_hash (ex_one 0) [97] = some g :=
  ⟨reachable_ex_one 0, dict_get_refines_exact sum_hash (ex_one 0) [97] (reachable_ex_one 0)⟩

/-- C15: for every reachable dictionary below the capacity ceiling, key `k` and
value `v`, `dict_set(d, k, v)` returns and the live-count afterwards is the
live-count before plus one when `k` was absent and `v` is non-null, and is
unchanged in every other case; deleting a present key with `v = NULL` removes
exactly one entry from the table and leaves the live-count as it was. -/
theorem dict_set_live_count (str_hash : Key → Nat) (d : dict) (k : Key) (v : Nat)
    (hr : Reachable str_hash d) (hb : below_ceiling d) :
    ∃ d1 log g, dict_set str_hash d k v = some (d1, log) ∧ dict_get str_hash d k = some g ∧
      d1.used = (if g = 0 ∧ v ≠ 0 then d.used + 1 else d.used) ∧
      (g ≠ 0 → v = 0 →
        d1.table.flatten.length + 1 = d.table.flatten.length ∧ d1.used = d.used) := by
  obtain ⟨d1, log, g, threshold, size, s1, s2, -, -, -, -, s7, s8⟩ :=
    dict_set_step (inv_of_reachable hr) hb k v
  refine ⟨d1, log, g, s1, s2, s7, fun hg hv => ?_⟩
  rw [s7]
  simp only [hg, hv, ne_eq, not_false_eq_true, not_true_eq_false, if_true, if_false,
    and_false, add_zero] at s8 ⊢
  exact ⟨s8, trivial⟩

theorem dict_set_live_count_witness :
    Reachable sum_hash (ex_one 0) ∧ below_ceiling (ex_one 0) ∧
      ∃ d1 log g, dict_set sum_hash (ex_one 0) [97] 0 = some (d1, log) ∧
        dict_get sum_hash (ex_one 0) [97] = some g ∧
        d1.used = (if g = 0 ∧ (0 : Nat) ≠ 0 then (ex_one 0).used + 1 else (ex_one 0).used) ∧
        (g ≠ 0 → (0 : Nat) = 0 →
          d1.table.flatten.length + 1 = (ex_one 0).table.flatten.length ∧
            d1.used = (ex_one 0).used) :=
  ⟨reachable_ex_one 0, by decide,
    dict_set_live_count sum_hash (ex_one 0) [97] 0 (reachable_ex_one 0) (by decide)⟩

/-- C16: when `_dict_resize` advances from a class of capacity `size` to one of
capacity `prime`, the entries are relinked: the call returns, destructor,
live-count are kept, the index is `idx + 1`, the new array has `prime` buckets,
the new chain at every `j < prime` is the reverse of the entries met when
walking the old buckets in order, each chain from head to tail, that have
stored hash mod `prime` equal to `j` (the entries themselves unchanged), and
the multiset of entries is preserved. -/
theorem dict_resize_relinks (d : dict) (threshold size threshold1 prime : Nat)
    (hp : _primes[d.idx]? = some (threshold, size))
    (hp1 : _primes[d.idx + 1]? = some (threshold1, prime))
    (hlen : d.table.length = size) (hu : threshold ≤ d.used) :
    ∃ d1, _dict_resize d = some d1 ∧ d1.fdie = d.fdie ∧ d1.used = d.used ∧
      d1.idx = d.idx + 1 ∧ d1.table.length = prime ∧
      (∀ j, j < prime →
        d1.table[j]? = some ((d.table.flatten.filter (fun e => e.hash % prime = j)).reverse)) ∧
      d1.table.flatten.Perm d.table.flatten := by
  obtain ⟨T1, h1, h2, h3, h4⟩ := dict_resize_advance hp hp1 hlen hu
  exact ⟨_, h1, rfl, rfl, rfl, h2, h3, h4⟩

theorem dict_resize_relinks_witness :
    _primes[ex_loaded.idx]? = some (63, 53) ∧ _primes[ex_loaded.idx + 1]? = some (127, 97) ∧
      ex_loaded.table.length = 53 ∧ 63 ≤ ex_loaded.used ∧
      ∃ d1, _dict_resize ex_loaded = some d1 ∧ d1.fdie = ex_loaded.fdie ∧
        d1.used = ex_loaded.used ∧ d1.idx = ex_loaded.idx + 1 ∧ d1.table.length = 97 ∧
        (∀ j, j < 97 →
          d1.table[j]? =
            some ((ex_loaded.table.flatten.filter (fun e => e.hash % 97 = j)).reverse)) ∧
        d1.table.flatten.Perm ex_loaded.table.flatten :=
  ⟨by decide, by decide, by decide, by decide,
    dict_resize_relinks ex_loaded 63 53 127 97 (by decide) (by decide) (by decide)
      (by decide)⟩

/-- C17: in every dictionary reachable from `dict_create` by `dict_set` calls the
bucket array has exactly `_primes[idx][1]` buckets, and every entry found in
bucket `i` has a stored hash equal to the hash of its key and satisfies stored
hash mod `_primes[idx][1] = i`. -/
theorem bucket_placement (str_hash : Key → Nat) (d : dict) (hr : Reachable str_hash d) :
    ∃ threshold size, _primes[d.idx]? = some (threshold, size) ∧ d.table.length = size ∧
      ∀ i chain, d.table[i]? = some chain →
        ∀ e ∈ chain, e.hash = str_hash e.key ∧ e.hash % size = i := by
  obtain ⟨threshold, size, hp, hlen, -, hall⟩ := inv_of_reachable hr
  exact ⟨threshold, size, hp, hlen, fun i chain hi e he =>
    ⟨((hall i chain hi).1 e he).1, ((hall i chain hi).1 e he).2.1⟩⟩

theorem bucket_placement_witness :
    Reachable sum_hash ex_loaded ∧
      ∃ threshold size, _primes[ex_loaded.idx]? = some (threshold, size) ∧
        ex_loaded.table.length = size ∧
        ∀ i chain, ex_loaded.table[i]? = some chain →
          ∀ e ∈ chain, e.hash = sum_hash e.key ∧ e.hash % size = i :=
  ⟨reachable_ex_loaded, bucket_placement sum_hash ex_loaded reachable_ex_loaded⟩

/-- C18: in every dictionary reachable from `dict_create` by `dict_set` calls no
two entries anywhere in the table have equal keys, and every stored entry has
a non-null value; so no `dict_set` call on it passes `NULL` to the destructor. -/
theorem keys_unique_values_nonnull (str_hash : Key → Nat) (d : dict)
    (hr : Reachable str_hash d) :
    (d.table.flatten.map keypair.key).Nodup ∧ (∀ e ∈ d.table.flatten, e.val ≠ 0) ∧
      ∀ k v d1 log, dict_set str_hash d k v = some (d1, log) → 0 ∉ log := by
  have hinv := inv_of_reachable hr
  refine ⟨inv_nodup hinv, fun e he => ?_, fun k v d1 log hs => ?_⟩
  · obtain ⟨_, _, chain, -, -, hec, hok⟩ := inv_entry hinv he
    exact (hok.1 e hec).2.2
  · obtain ⟨d2, log2, g, s1, -, -, -, -, -, -, s8, -⟩ :=
      dict_set_spec hinv (reachable_below hr hs) k v
    rw [hs] at s1
    simp only [Option.some.injEq, Prod.mk.injEq] at s1
    rw [s1.2, s8]
    split_ifs with h
    · simp only [List.mem_singleton]
      exact fun h0 => h.2.1 h0.symm
    · simp

theorem keys_unique_values_nonnull_witness :
    Reachable sum_hash (ex_one 3) ∧
      ((ex_one 3).table.flatten.map keypair.key).Nodup ∧
      (∀ e ∈ (ex_one 3).table.flatten, e.val ≠ 0) ∧
      ∀ k v d1 log, dict_set sum_hash (ex_one 3) k v = some (d1, log) → 0 ∉ log :=
  ⟨reachable_ex_one 3, keys_unique_values_nonnull sum_hash (ex_one 3) (reachable_ex_one 3)⟩

/-- C19, as stated, fails at the capacity ceiling: the dictionary left by the
4294967295 calls of `fill` is reachable and satisfies both bounds, but the resize
check of the next `dict_set` reads `_primes` past its last row, so no state
immediately after the check is defined and no class advance is available. -/
theorem live_count_ceiling :
    ∃ d log, run sum_hash (ex_empty 0) (fill 4294967295) = some (d, log) ∧
      Reachable sum_hash d ∧
      (∃ threshold size, _primes[d.idx]? = some (threshold, size) ∧ d.used ≤ threshold) ∧
      d.table.flatten.length ≤ d.used ∧ _dict_resize d = none ∧
      dict_set sum_hash d [0] 1 = none := by
  obtain ⟨d, log, h1, hr, -, hu, -⟩ :=
    fill_spec sum_hash 0 (ex_empty 0) (dict_create_eq 0) 4294967295 (by decide)
  have hinv := inv_of_reachable hr
  have hb := ceiling_of_used hinv hu
  obtain ⟨threshold, size, hp, -, hle, -⟩ := id hinv
  exact ⟨d, log, h1, hr, ⟨threshold, size, hp, hle⟩, entries_le_used hr,
    dict_resize_none_at_ceiling hinv hb, dict_set_none_at_ceiling hinv hb [0] 1⟩

/-- C19, amended: in every dictionary reachable from `dict_create` by `dict_set`
calls the live-count is at most `_primes[idx][0]` and the number of entries is
at most the live-count, with equality when no deletion has happened; for a
dictionary below the capacity ceiling the resize check returns, and whenever it
returns the live-count is strictly below the threshold of the class it leaves
current. -/
theorem live_count_bounds (str_hash : Key → Nat) (d : dict) (hr : Reachable str_hash d) :
    (∃ threshold size, _primes[d.idx]? = some (threshold, size) ∧ d.used ≤ threshold) ∧
      d.table.flatten.length ≤ d.used ∧
      (Undeleted str_hash d → d.table.flatten.length = d.used) ∧
      (∀ d1, _dict_resize d = some d1 →
        ∃ threshold1 size1, _primes[d1.idx]? = some (threshold1, size1) ∧
          d1.used < threshold1) ∧
      (below_ceiling d → ∃ d1, _dict_resize d = some d1) := by
  have hinv := inv_of_reachable hr
  obtain ⟨threshold, size, hp, -, hu, -⟩ := id hinv
  refine ⟨⟨threshold, size, hp, hu⟩, entries_le_used hr, fun h => (undeleted_spec h).2, ?_, ?_⟩
  · intro d1 h1
    by_cases hb : below_ceiling d
    · obtain ⟨d2, r1, r2, -, -, r5, -⟩ := dict_resize_spec hinv hb
      rw [h1] at r1
      simp only [Option.some.injEq] at r1
      subst r1
      obtain ⟨t1, n1, q1, -⟩ := r2
      exact ⟨t1, n1, q1, r5 t1 n1 q1⟩
    · rw [dict_resize_none_at_ceiling hinv hb] at h1
      simp at h1
  · intro hb
    obtain ⟨d2, r1, -⟩ := dict_resize_spec hinv hb
    exact ⟨d2, r1⟩

theorem live_count_bounds_witness :
    Reachable sum_hash ex_loaded ∧
      (∃ threshold size, _primes[ex_loaded.idx]? = some (threshold, size) ∧
        ex_loaded.used ≤ threshold) ∧
      ex_loaded.table.flatten.length ≤ ex_loaded.used ∧
      (Undeleted sum_hash ex_loaded → ex_loaded.table.flatten.length = ex_loaded.used) ∧
      (∀ d1, _dict_resize ex_loaded = some d1 →
        ∃ threshold1 size1, _primes[d1.idx]? = some (threshold1, size1) ∧
          d1.used < threshold1) ∧
      (below_ceiling ex_loaded → ∃ d1, _dict_resize ex_loaded = some d1) :=
  ⟨reachable_ex_loaded, live_count_bounds sum_hash ex_loaded reachable_ex_loaded⟩

/-- C20: the dictionary refines a finite map with last-writer-wins semantics: for
every hash function and every sequence of fewer than `2^32 - 1` `dict_set`
calls applied to a freshly created dictionary, all calls return, and for every
key `k`, `dict_get(d, k)` equals the lookup of `k` in the abstract map obtained
by folding the same calls (a non-null value binds the key, `NULL` removes it,
an absent key reads as `NULL`). -/
theorem dict_refines_map (str_hash : Key → Nat) (fdie : Nat) (calls : List (Key × Nat))
    (hlen : calls.length < UINT_MAX) :
    ∃ d0 d log, dict_create fdie = some d0 ∧ run str_hash d0 calls = some (d, log) ∧
      ∀ k, dict_get str_hash d k = some (abs_get (abs_run calls) k) := by
  have h0 := dict_create_eq fdie
  have hinv0 : Inv str_hash _ := inv_create h0
  obtain ⟨d, log, r1, r2⟩ := run_refines calls _ (fun _ => none) hinv0
    (fun k => by rw [dict_get_of_not_mem hinv0 (by simp)]; rfl)
    (by simp only [zero_add]; omega)
  exact ⟨_, d, log, h0, r1, r2⟩

theorem dict_refines_map_witness :
    [(([97] : Key), 5), ([98], 6), ([97], 0), ([98], 7)].length < UINT_MAX ∧
      ∃ d0 d log, dict_create 0 = some d0 ∧
        run sum_hash d0 [([97], 5), ([98], 6), ([97], 0), ([98], 7)] = some (d, log) ∧
        ∀ k, dict_get sum_hash d k
          = some (abs_get (abs_run [([97], 5), ([98], 6), ([97], 0), ([98], 7)]) k) :=
  ⟨by decide,
    dict_refines_map sum_hash 0 [([97], 5), ([98], 6), ([97], 0), ([98], 7)] (by decide)⟩

end Dict
